import Mathlib

/-!
Verification of the snapshot/restore engine of `src/utils/snapshot.js`
(claude-profile-manager).

The engine is embedded shallowly:
* a directory tree is `Tree` — a list of named entries in `readdirSync`
  order, where an entry is a file (with byte content) or a subdirectory;
* paths are slash-separated strings, as produced on a POSIX platform
  (`path.sep = '/'`, so the `split(sep).join('/')` normalisations in the
  source are the identity and every `path.join` is `a ++ "/" ++ b`);
* JavaScript string primitives (`startsWith`, `endsWith`, `slice`,
  `split('/')`) act on sequences of characters, and are modelled by
  structural functions over `String.data`;
* filesystem side effects (`writeFileSync`, `mkdirSync`, `rmSync`,
  `cpSync`, zip extraction) become explicit state passing over `Tree`
  values, with thrown exceptions modelled by an error component; an
  exclusively locked destination file is one whose `writeFileSync`
  raises `EBUSY`, modelled by membership of its destination-relative
  path in a `locked` list.
-/

set_option linter.unnecessarySeqFocus false

namespace Snapshot

/-- A filesystem entry: a file with byte content, or a directory with a
list of named children in `readdirSync` order. -/
inductive Entry where
  | file : List Nat → Entry
  | dir : List (String × Entry) → Entry

/-- A directory listing: named entries in `readdirSync` order. -/
abbrev Tree := List (String × Entry)

/-! ## JavaScript string primitives, modelled on `String.data` -/

/-- Model of JavaScript `s.startsWith(pre)`. -/
def strStartsWith (s pre : String) : Bool := pre.data.isPrefixOf s.data

/-- Model of JavaScript `s.endsWith(post)`. -/
def strEndsWith (s post : String) : Bool := post.data.isSuffixOf s.data

/-- Model of JavaScript `s.slice(0, -n)` (drop the last `n` characters). -/
def strDropRight (s : String) (n : Nat) : String :=
  String.mk (s.data.take (s.data.length - n))

/-- Model of JavaScript `s.slice(n)` (drop the first `n` characters). -/
def strDrop (s : String) (n : Nat) : String := String.mk (s.data.drop n)

/-- Accumulator pass of `split('/')`: `acc` holds the (reversed) current
segment. -/
def splitSegsAux (acc : List Char) (l : List Char) : List (List Char) :=
  match l with
  | [] => [acc.reverse]
  | c :: rest =>
    if c = '/' then acc.reverse :: splitSegsAux [] rest
    else splitSegsAux (c :: acc) rest

/-- Model of JavaScript `s.split('/')`: the slash-separated segments of
`s`, keeping empty segments (`"".split('/') = [""]`). -/
def splitSlash (s : String) : List String :=
  (splitSegsAux [] s.data).map String.mk

/-- `path.join(pre, name)` as used in the walk: `relativePath ?
join(relativePath, entry) : entry`. -/
def joinRel (pre name : String) : String :=
  if pre = "" then name else pre ++ "/" ++ name

/-! ## Pattern lists and the Selector (`snapshot.js` lines 8–36, 178–252) -/

/-- `DEFAULT_EXCLUDES` from `snapshot.js`: patterns excluded by default
(secrets, caches, etc.). -/
def DEFAULT_EXCLUDES : List String :=
  [".credentials", ".auth", "*.key", "*.pem", "*.secret", "oauth_token*",
   ".cache", "node_modules", ".git"]

/-- `SAFE_INCLUDES` from `snapshot.js`: the allowlist of files that are
safe to include. -/
def SAFE_INCLUDES : List String :=
  ["CLAUDE.md", "commands", "commands/**", "skills", "skills/**",
   "hooks", "hooks/**", "plugins", "plugins/**", "mcp.json",
   "mcp_servers", "mcp_servers/**", "agents", "agents/**"]

/-- `isAllowed(name, path)` from `snapshot.js`: does the entry match some
`SAFE_INCLUDES` pattern?  A `dir/**` pattern matches when the normalised
path starts with `dir/` or equals `dir`; any other pattern matches the
entry name or the full path exactly. -/
def isAllowed (name path : String) : Bool :=
  SAFE_INCLUDES.any fun pattern =>
    if strEndsWith pattern "/**" then
      strStartsWith path (strDropRight pattern 3 ++ "/") ||
        path == strDropRight pattern 3
    else
      name == pattern || path == pattern

/-- `shouldExclude(name, path, excludes)` from `snapshot.js`: a `*.ext`
pattern matches by name suffix; otherwise an exact name/path match; a
trailing-`*` pattern matches by name prefix. -/
def shouldExclude (name path : String) (excludes : List String) : Bool :=
  excludes.any fun pattern =>
    if strStartsWith pattern "*." then
      strEndsWith name (strDrop pattern 1)
    else if name == pattern || path == pattern then
      true
    else
      strEndsWith pattern "*" && strStartsWith name (strDropRight pattern 1)

mutual
/-- Body of the `for` loop of `walk` inside `getFilesToArchive`: one
directory entry is first tested against the allowlist, then against the
exclusion patterns; an excluded or disallowed entry is skipped without
descending, a surviving directory is recursed into and a surviving file
emits its relative path. -/
def walkEntry (excludes : List String) (name : String) (e : Entry)
    (pre : String) : List String :=
  let relPath := joinRel pre name
  if !isAllowed name relPath then []
  else if shouldExclude name relPath excludes then []
  else
    match e with
    | Entry.file _ => [relPath]
    | Entry.dir children => walkTree excludes children relPath

/-- `walk(currentDir, relativePath)` inside `getFilesToArchive`: iterate
the `readdirSync` listing in order, concatenating what each entry
produces. -/
def walkTree (excludes : List String) (t : Tree) (pre : String) :
    List String :=
  match t with
  | [] => []
  | (name, e) :: rest =>
    walkEntry excludes name e pre ++ walkTree excludes rest pre
end

/-- `getFilesToArchive(dir, includeSecrets)` from `snapshot.js`: walk the
tree with `excludes = includeSecrets ? [] : DEFAULT_EXCLUDES`, starting
from the empty relative path. -/
def getFilesToArchive (t : Tree) (includeSecrets : Bool) : List String :=
  walkTree (if includeSecrets then [] else DEFAULT_EXCLUDES) t ""

/-! ## Content Summarizer (`snapshot.js` lines 115–173) -/

/-- The summary object of `deriveContents`: category keys mapping to item
lists, in insertion order (JavaScript object property order for the
string keys used here). -/
abbrev Contents := List (String × List String)

/-- Does the summary object already have this category key
(JavaScript truthiness of `contents[cat]`, which is a non-empty array
whenever present)? -/
def hasCat (c : Contents) (cat : String) : Bool := c.any (fun p => p.1 == cat)

/-- `if (!contents[cat]) contents[cat] = []; contents[cat].push(item)` —
append unconditionally. -/
def pushRaw (c : Contents) (cat item : String) : Contents :=
  if hasCat c cat then
    c.map (fun p => if p.1 == cat then (p.1, p.2 ++ [item]) else p)
  else c ++ [(cat, [item])]

/-- The category push guarded by `includes`: append only when the item is
not already present. -/
def pushDedup (c : Contents) (cat item : String) : Contents :=
  if hasCat c cat then
    c.map (fun p =>
      if p.1 == cat then
        (p.1, if p.2.contains item then p.2 else p.2 ++ [item])
      else p)
  else c ++ [(cat, [item])]

/-- `itemName = parts[1].replace(/\.[^.]+$/, '')`: strip a final
extension — a last dot followed by at least one non-dot character. -/
def stripExt (s : String) : String :=
  let rev := s.data.reverse
  let suffix := rev.takeWhile (fun c => c ≠ '.')
  if suffix.length = 0 ∨ suffix.length = rev.length then s
  else String.mk ((rev.drop (suffix.length + 1)).reverse)

/-- One iteration of the `for` loop of `deriveContents`. -/
def deriveStep (c : Contents) (file : String) : Contents :=
  if file = "CLAUDE.md" then pushRaw c "instructions" "CLAUDE.md"
  else if file = "mcp.json" then pushRaw c "mcp" "mcp.json"
  else
    match splitSlash file with
    | cat :: item :: _ => pushDedup c cat (stripExt item)
    | _ => c

/-- `deriveContents(files)` from `snapshot.js`. -/
def deriveContents (files : List String) : Contents :=
  files.foldl deriveStep []

/-- What reading and parsing `mcp.json` under the source root can yield:
the file is absent, the read/parse throws, or it parses and
`Object.keys(mcpData.mcpServers || mcpData)` is the given key list. -/
inductive McpSource where
  | absent
  | unreadable
  | parsed : List String → McpSource

/-- `contents[cat] = items` — replace the items of an existing
category. -/
def setCat (c : Contents) (cat : String) (items : List String) : Contents :=
  c.map (fun p => if p.1 == cat then (p.1, items) else p)

/-- `deriveContentsWithMcp(files, claudeDir)` from `snapshot.js`:
derive the summary, then, if it has an `mcp` category and a source root
was supplied, best-effort replace the `mcp` items by the server names
parsed from `mcp.json`; an absent file, a failed read/parse, or an empty
key set keeps the fallback. -/
def deriveContentsWithMcp (files : List String) (claudeDir : Option McpSource) :
    Contents :=
  let contents := deriveContents files
  match claudeDir with
  | none => contents
  | some src =>
    if hasCat contents "mcp" then
      match src with
      | McpSource.parsed names =>
        if names.length > 0 then setCat contents "mcp" names else contents
      | _ => contents
    else contents

/-! ## The Archiver loop of `createSnapshot` (`snapshot.js` lines 93–107) -/

/-- An entry written into the zip container: a file entry with its byte
content, or a directory entry. -/
inductive ArchiveEntry where
  | fileEntry : String → List Nat → ArchiveEntry
  | dirEntry : String → ArchiveEntry

/-- Look up one name in a directory listing (`find` semantics: first
match). -/
def findEntry (t : Tree) (n : String) : Option Entry :=
  (t.find? (fun p => p.1 == n)).map Prod.snd

/-- Resolution of a relative path, segment by segment, against a tree —
the model of what `statSync(join(root, relPath))` inspects. -/
def resolveSegs (t : Tree) (l : List String) : Option Entry :=
  match l with
  | [] => none
  | [n] => findEntry t n
  | n :: rest =>
    match findEntry t n with
    | some (Entry.dir ch) => resolveSegs ch rest
    | _ => none

/-- `statSync(join(root, p))` as resolution of `p.split('/')`. -/
def statPath (t : Tree) (p : String) : Option Entry :=
  resolveSegs t (splitSlash p)

/-- The body of the archiving loop of `createSnapshot` for one selected
path: `stat.isDirectory() ? archive.directory(...) : archive.file(...)`;
`none` models `statSync` throwing on a missing path. -/
def entryFor (t : Tree) (f : String) : Option ArchiveEntry :=
  match statPath t f with
  | some (Entry.dir _) => some (ArchiveEntry.dirEntry f)
  | some (Entry.file c) => some (ArchiveEntry.fileEntry f c)
  | none => none

/-- The archiving loop of `createSnapshot`: stat every path selected by
`getFilesToArchive` and turn it into the corresponding archive entry
(`none` when some `statSync` throws). -/
def createSnapshotEntries (t : Tree) (includeSecrets : Bool) :
    Option (List ArchiveEntry) :=
  (getFilesToArchive t includeSecrets).mapM (entryFor t)

/-! ## Zip extraction into the scratch directory -/

/-- Overwrite-or-append one named entry of a directory listing (the
result of writing at that name). -/
def setEntry (t : Tree) (n : String) (e : Entry) : Tree :=
  if t.any (fun p => p.1 == n) then
    t.map (fun p => if p.1 == n then (n, e) else p)
  else t ++ [(n, e)]

/-- Create the file at the given segment path, creating intermediate
directories (what writing one extracted zip file entry does). -/
def insertPath (t : Tree) (l : List String) (content : List Nat) : Tree :=
  match l with
  | [] => t
  | [n] => setEntry t n (Entry.file content)
  | n :: rest =>
    let sub := match findEntry t n with
      | some (Entry.dir ch) => ch
      | _ => []
    setEntry t n (Entry.dir (insertPath sub rest content))

/-- Create the directory at the given segment path, keeping an existing
directory (what extracting a zip directory entry does). -/
def mkdirPath (t : Tree) (l : List String) : Tree :=
  match l with
  | [] => t
  | n :: rest =>
    let sub := match findEntry t n with
      | some (Entry.dir ch) => ch
      | _ => []
    setEntry t n (Entry.dir (mkdirPath sub rest))

/-- Extract one archive entry into the scratch tree. -/
def extractOne (t : Tree) (e : ArchiveEntry) : Tree :=
  match e with
  | ArchiveEntry.fileEntry p c => insertPath t (splitSlash p) c
  | ArchiveEntry.dirEntry p => mkdirPath t (splitSlash p)

/-- `extractZip(zipPath, { dir: tempExtractDir })` into a fresh scratch
directory: extract the entries in order, starting from an empty tree. -/
def extractArchive (es : List ArchiveEntry) : Tree :=
  es.foldl extractOne []

/-! ## Restorer (`snapshot.js` lines 258–386) -/

/-- The errors a restore can raise, by the `throw` sites of
`snapshot.js`: the missing-profile precondition, the
destination-exists precondition, the distinguished `EBUSY` lock error
carrying `entry.name`, any other I/O error rethrown by `copyDirMerge`,
and an exception escaping the `finally` cleanup block. -/
inductive RestoreErr where
  | profileNotFound
  | destinationExists
  | fileLocked : String → RestoreErr
  | ioError
  | cleanupFailure

mutual
/-- Body of the `for` loop of `copyDirMerge` for one source entry.
A directory is `mkdirSync`-ed (throwing if a destination file stands in
the way) and recursed into; a file is read from scratch and written over
the destination — a write hitting a directory rethrows the plain error,
a write on an exclusively locked destination file (`EBUSY`) throws the
distinguished message naming `entry.name`.  The returned tree is the
destination as mutated so far. -/
def copyEntryMerge (locked : List String) (name : String) (e : Entry)
    (pre : String) (dest : Tree) : Tree × Option RestoreErr :=
  match e with
  | Entry.file c =>
    match findEntry dest name with
    | some (Entry.dir _) => (dest, some RestoreErr.ioError)
    | _ =>
      if locked.contains (joinRel pre name) then
        (dest, some (RestoreErr.fileLocked name))
      else (setEntry dest name (Entry.file c), none)
  | Entry.dir children =>
    match findEntry dest name with
    | some (Entry.file _) => (dest, some RestoreErr.ioError)
    | other =>
      let sub := match other with
        | some (Entry.dir dch) => dch
        | _ => []
      let m := copyDirMerge locked children (joinRel pre name) sub
      (setEntry dest name (Entry.dir m.1), m.2)

/-- `copyDirMerge(src, dest)` from `snapshot.js`: iterate the scratch
listing in order, merging each entry into the destination and aborting
at the first thrown error (entries already merged stay merged). -/
def copyDirMerge (locked : List String) (src : Tree) (pre : String)
    (dest : Tree) : Tree × Option RestoreErr :=
  match src with
  | [] => (dest, none)
  | (name, e) :: rest =>
    let r := copyEntryMerge locked name e pre dest
    match r.2 with
    | some err => (r.1, some err)
    | none => copyDirMerge locked rest pre r.1
end

/-- `options` bag of `extractSnapshot` / `extractDownloadedSnapshot`. -/
structure RestoreOptions where
  backup : Bool
  force : Bool

/-- The world `extractSnapshot` runs against: the profile archive
(`none` when `snapshot.zip` is missing), the destination `.claude` tree
(`none` when absent), the set of exclusively locked destination paths,
and whether the scratch `rmSync` in the `finally` block would throw. -/
structure ExtractInput where
  zip : Option (List ArchiveEntry)
  claudeDir : Option Tree
  locked : List String
  rmScratchThrows : Bool

/-- The observable outcome of `extractSnapshot`: the returned value or
thrown error, the destination tree, the backup copies taken, whether the
scratch directory was created and the archive extracted, and whether the
scratch directory is left behind. -/
structure ExtractState where
  result : Except RestoreErr Unit
  claudeDir : Option Tree
  backups : List Tree
  scratchCreated : Bool
  extracted : Bool
  scratchRemains : Bool

/-- `extractSnapshot(profileName, options)` from `snapshot.js`:
check `snapshot.zip` exists; back up the destination if requested;
throw if the destination exists without `force`; then (inside
`try`/`finally`) create the scratch directory, extract, `mkdirSync` the
destination, and merge — the `finally` block best-effort removes the
scratch directory, swallowing any `rmSync` exception. -/
def extractSnapshot (inp : ExtractInput) (opts : RestoreOptions) :
    ExtractState :=
  match inp.zip with
  | none =>
    { result := Except.error RestoreErr.profileNotFound
      claudeDir := inp.claudeDir, backups := []
      scratchCreated := false, extracted := false, scratchRemains := false }
  | some zipEntries =>
    let backups :=
      if opts.backup && inp.claudeDir.isSome then [inp.claudeDir.getD []]
      else []
    if inp.claudeDir.isSome && !opts.force then
      { result := Except.error RestoreErr.destinationExists
        claudeDir := inp.claudeDir, backups := backups
        scratchCreated := false, extracted := false, scratchRemains := false }
    else
      let scratchTree := extractArchive zipEntries
      let m := copyDirMerge inp.locked scratchTree "" (inp.claudeDir.getD [])
      { result :=
          match m.2 with
          | some e => Except.error e
          | none => Except.ok ()
        claudeDir := some m.1, backups := backups
        scratchCreated := true, extracted := true
        scratchRemains := inp.rmScratchThrows }

/-- The world `extractDownloadedSnapshot` runs against: the archive
entries of the downloaded buffer, the destination tree, the locked
destination paths, and whether each `rmSync` of the `finally` block
would throw. -/
structure DlInput where
  zipEntries : List ArchiveEntry
  claudeDir : Option Tree
  locked : List String
  rmZipThrows : Bool
  rmScratchThrows : Bool

/-- The observable outcome of `extractDownloadedSnapshot`, with the
temporary archive file and scratch directory leftovers tracked. -/
structure DlState where
  result : Except RestoreErr Unit
  claudeDir : Option Tree
  backups : List Tree
  tempZipRemains : Bool
  scratchRemains : Bool

/-- `extractDownloadedSnapshot(zipBuffer, options)` from `snapshot.js`:
write the buffer to a temporary zip; inside `try`, back up, check
`force`, extract to scratch and merge; in `finally`, `rmSync(tempZip)`
runs UNGUARDED — if it throws, that exception replaces the primary
outcome and the guarded scratch removal never runs — then the scratch
removal runs inside its own `try`/`catch` that swallows failure. -/
def extractDownloadedSnapshot (inp : DlInput) (opts : RestoreOptions) :
    DlState :=
  let backups :=
    if opts.backup && inp.claudeDir.isSome then [inp.claudeDir.getD []]
    else []
  let primary : Except RestoreErr Unit × Option Tree × Bool :=
    if inp.claudeDir.isSome && !opts.force then
      (Except.error RestoreErr.destinationExists, inp.claudeDir, false)
    else
      let scratchTree := extractArchive inp.zipEntries
      let m := copyDirMerge inp.locked scratchTree "" (inp.claudeDir.getD [])
      ((match m.2 with
        | some e => Except.error e
        | none => Except.ok ()), some m.1, true)
  if inp.rmZipThrows then
    { result := Except.error RestoreErr.cleanupFailure
      claudeDir := primary.2.1, backups := backups
      tempZipRemains := true, scratchRemains := primary.2.2 }
  else
    { result := primary.1, claudeDir := primary.2.1, backups := backups
      tempZipRemains := false
      scratchRemains := primary.2.2 && inp.rmScratchThrows }

/-! ## Well-formed trees

A real directory listing has distinct, non-empty, slash-free entry
names; these facts about the filesystem are what path resolution
depends on. -/

/-- A legal filesystem entry name: non-empty and without `'/'`. -/
def validName (n : String) : Bool :=
  !n.data.isEmpty && !n.data.contains '/'

mutual
/-- Well-formedness of one entry: directories have well-formed
listings. -/
def wfEntry (e : Entry) : Bool :=
  match e with
  | Entry.file _ => true
  | Entry.dir children => wfTree children

/-- Well-formedness of a directory listing: valid, pairwise distinct
names, and well-formed entries. -/
def wfTree (t : Tree) : Bool :=
  match t with
  | [] => true
  | (name, e) :: rest =>
    validName name && !(rest.map Prod.fst).contains name &&
      wfEntry e && wfTree rest
end

/-- Resolution of the remaining segments inside one entry: no segments
left selects the entry itself; descending continues only through a
directory. -/
def resolveInEntry (e : Entry) (l : List String) : Option Entry :=
  match l with
  | [] => some e
  | _ :: _ =>
    match e with
    | Entry.dir ch => resolveSegs ch l
    | Entry.file _ => none

mutual
/-- Entry names are pairwise distinct in every directory reachable from
this entry (true of any real filesystem listing). -/
def nodupEntry (e : Entry) : Bool :=
  match e with
  | Entry.file _ => true
  | Entry.dir children => nodupTree children

/-- Entry names are pairwise distinct in this listing and in every
directory below it. -/
def nodupTree (t : Tree) : Bool :=
  match t with
  | [] => true
  | (name, e) :: rest =>
    !(rest.map Prod.fst).contains name && nodupEntry e && nodupTree rest
end

/-- Every entry of this listing that carries name `n` is exactly the
entry `e` — the state of a directory after `n` has been written with
`e` and only other names have been touched since. -/
def allNamed (d : Tree) (n : String) (e : Entry) : Prop :=
  ∀ q ∈ d, q.1 = n → q = (n, e)

/-- The segment-list prefix contributed by the walk's accumulated
relative path: nothing for the empty prefix, its segments otherwise. -/
def preSegs (pre : String) : List String :=
  if pre = "" then [] else splitSlash pre

/-- One restore of archive `z` onto destination `d0` with `force` set
(no locked files), as performed by `extractSnapshot`. -/
def restoreOnce (z : List ArchiveEntry) (d0 : Option Tree) (b r : Bool) :
    ExtractState :=
  extractSnapshot
    { zip := some z, claudeDir := d0, locked := [], rmScratchThrows := r }
    { backup := b, force := true }

/-! ## Example trees used as concrete instances -/

/-- A small source tree: an allowlisted `commands` directory holding a
secret-looking file and a normal file, plus the instructions file. -/
def sampleTree : Tree :=
  [("commands", Entry.dir
      [("oauth_token.md", Entry.file [0]), ("deploy.md", Entry.file [1])]),
   ("CLAUDE.md", Entry.file [2])]

/-! ## Selector lemmas -/

/-- With the empty exclusion list nothing is ever excluded. -/
theorem shouldExclude_nil (n p : String) : shouldExclude n p [] = false := rfl

/-- Unfolding of `walkEntry` at a file. -/
theorem walkEntry_file (excludes : List String) (name : String)
    (c : List Nat) (pre : String) :
    walkEntry excludes name (Entry.file c) pre =
      if !isAllowed name (joinRel pre name) then []
      else if shouldExclude name (joinRel pre name) excludes then []
      else [joinRel pre name] := by
  rw [walkEntry.eq_def]

/-- Unfolding of `walkEntry` at a directory. -/
theorem walkEntry_dir (excludes : List String) (name : String)
    (children : Tree) (pre : String) :
    walkEntry excludes name (Entry.dir children) pre =
      if !isAllowed name (joinRel pre name) then []
      else if shouldExclude name (joinRel pre name) excludes then []
      else walkTree excludes children (joinRel pre name) := by
  rw [walkEntry.eq_def]

mutual
/-- Any path emitted while visiting one entry was emitted at a node that
passed the allowlist check and failed every exclusion check, with the
entry name as the final path component. -/
theorem walkEntry_sound (excludes : List String) (name : String) (e : Entry)
    (pre p : String) (hp : p ∈ walkEntry excludes name e pre) :
    ∃ n, (p = n ∨ ∃ q, p = q ++ "/" ++ n) ∧
      isAllowed n p = true ∧ shouldExclude n p excludes = false := by
  match e, hp with
  | Entry.file c, hp =>
    rw [walkEntry_file] at hp
    simp at hp
    obtain ⟨hA, hE, hp2⟩ := hp
    subst hp2
    refine ⟨name, ?_, hA, hE⟩
    rw [joinRel]
    split
    · exact Or.inl rfl
    · exact Or.inr ⟨pre, rfl⟩
  | Entry.dir children, hp =>
    rw [walkEntry_dir] at hp
    split at hp
    · simp at hp
    · split at hp
      · simp at hp
      · exact walkTree_sound excludes children (joinRel pre name) p hp

/-- Any path emitted by the walk of a listing was emitted at a node that
passed the allowlist check and failed every exclusion check. -/
theorem walkTree_sound (excludes : List String) (t : Tree) (pre p : String)
    (hp : p ∈ walkTree excludes t pre) :
    ∃ n, (p = n ∨ ∃ q, p = q ++ "/" ++ n) ∧
      isAllowed n p = true ∧ shouldExclude n p excludes = false := by
  match t, hp with
  | (name, e) :: rest, hp =>
    rw [walkTree] at hp
    rcases List.mem_append.mp hp with h | h
    · exact walkEntry_sound excludes name e pre p h
    · exact walkTree_sound excludes rest pre p h
end

mutual
/-- Dropping the exclusion list never loses an emitted path
(entry level). -/
theorem walkEntry_mono (excludes : List String) (name : String) (e : Entry)
    (pre p : String) (hp : p ∈ walkEntry excludes name e pre) :
    p ∈ walkEntry [] name e pre := by
  match e, hp with
  | Entry.file c, hp =>
    rw [walkEntry_file] at hp
    rw [walkEntry_file]
    simp only [shouldExclude_nil] at hp ⊢
    simp at hp
    simp [hp.1, hp.2.2]
  | Entry.dir children, hp =>
    rw [walkEntry_dir] at hp
    rw [walkEntry_dir]
    split at hp
    · simp at hp
    · split at hp
      · simp at hp
      · rename_i hA hE
        rw [if_neg hA]
        rw [if_neg (by rw [shouldExclude_nil]; simp)]
        exact walkTree_mono excludes children (joinRel pre name) p hp

/-- Dropping the exclusion list never loses an emitted path
(listing level). -/
theorem walkTree_mono (excludes : List String) (t : Tree) (pre p : String)
    (hp : p ∈ walkTree excludes t pre) : p ∈ walkTree [] t pre := by
  match t, hp with
  | (name, e) :: rest, hp =>
    rw [walkTree] at hp
    rw [walkTree]
    rcases List.mem_append.mp hp with h | h
    · exact List.mem_append.mpr (Or.inl (walkEntry_mono excludes name e pre p h))
    · exact List.mem_append.mpr (Or.inr (walkTree_mono excludes rest pre p h))
end

/-- C1: every path returned by the Selector with `includeSecrets=false`
matches at least one allowlist pattern (`isAllowed` is true of it, with
its final-component entry name) and matches no exclude pattern
(`shouldExclude` over `DEFAULT_EXCLUDES` is false of it); and with
`includeSecrets=true` the Selector never omits a path because of an
exclude pattern — every path of the default run is still returned, and
the exclude list used is empty, so `shouldExclude` rejects nothing. -/
theorem selection_soundness :
    (∀ (t : Tree) (p : String), p ∈ getFilesToArchive t false →
      ∃ n, (p = n ∨ ∃ q, p = q ++ "/" ++ n) ∧
        isAllowed n p = true ∧ shouldExclude n p DEFAULT_EXCLUDES = false) ∧
    (∀ (t : Tree) (p : String), p ∈ getFilesToArchive t false →
      p ∈ getFilesToArchive t true) ∧
    (∀ (n p : String), shouldExclude n p [] = false) := by
  refine ⟨?_, ?_, ?_⟩
  · intro t p hp
    exact walkTree_sound DEFAULT_EXCLUDES t "" p hp
  · intro t p hp
    exact walkTree_mono DEFAULT_EXCLUDES t "" p hp
  · intro n p
    rfl

/-- Witness for C1 at a concrete tree and path. -/
theorem selection_soundness_witness :
    (∃ n, ("commands/deploy.md" = n ∨
        ∃ q, "commands/deploy.md" = q ++ "/" ++ n) ∧
      isAllowed n "commands/deploy.md" = true ∧
      shouldExclude n "commands/deploy.md" DEFAULT_EXCLUDES = false) ∧
    "commands/deploy.md" ∈ getFilesToArchive sampleTree true :=
  ⟨selection_soundness.1 sampleTree "commands/deploy.md" (by decide),
   selection_soundness.2.1 sampleTree "commands/deploy.md" (by decide)⟩

/-- C4: the path `commands/oauth_token.md` matches both an allow pattern
(`commands/**`) and an exclude pattern (`oauth_token*`); the Selector
excludes it with `includeSecrets=false` and includes it with
`includeSecrets=true`; and in general no path returned by the default
run matches any exclude pattern (every returned path, tested with its
entry name as the walk tested it, fails `shouldExclude` over
`DEFAULT_EXCLUDES`). -/
theorem exclude_precedence :
    (isAllowed "oauth_token.md" "commands/oauth_token.md" = true ∧
     shouldExclude "oauth_token.md" "commands/oauth_token.md"
       DEFAULT_EXCLUDES = true) ∧
    ("commands/oauth_token.md" ∉ getFilesToArchive sampleTree false ∧
     "commands/oauth_token.md" ∈ getFilesToArchive sampleTree true) ∧
    (∀ (t : Tree) (p : String), p ∈ getFilesToArchive t false →
      ∃ n, isAllowed n p = true ∧
        shouldExclude n p DEFAULT_EXCLUDES = false) := by
  refine ⟨⟨by decide, by decide⟩, ⟨by decide, by decide⟩, ?_⟩
  intro t p hp
  obtain ⟨n, _, hA, hE⟩ := walkTree_sound DEFAULT_EXCLUDES t "" p hp
  exact ⟨n, hA, hE⟩

/-- Witness for C4 at a concrete tree and path. -/
theorem exclude_precedence_witness :
    ∃ n, isAllowed n "commands/deploy.md" = true ∧
      shouldExclude n "commands/deploy.md" DEFAULT_EXCLUDES = false :=
  exclude_precedence.2.2 sampleTree "commands/deploy.md" (by decide)

/-- C3: restoring a profile whose archive is present onto a destination
directory that already exists, with `force` unset and `backup` unset,
throws the destination-exists precondition error, leaves the
destination tree exactly as it was, takes no backup, and performs no
extraction work: the scratch directory is never created and the archive
is never extracted. -/
theorem destination_exists_precondition :
    ∀ (z : List ArchiveEntry) (d : Tree) (locked : List String) (rm : Bool),
      extractSnapshot
        { zip := some z, claudeDir := some d, locked := locked,
          rmScratchThrows := rm }
        { backup := false, force := false } =
      { result := Except.error RestoreErr.destinationExists
        claudeDir := some d, backups := []
        scratchCreated := false, extracted := false,
        scratchRemains := false } := by
  intro z d locked rm
  rfl

/-- C7 counterexample: a source tree holding one allowlisted directory
with no files in it produces an archive with no entries at all — the
directory is not stored as a directory entry (the Selector emits only
file paths, so `archive.directory` is never reached). -/
theorem empty_directory_not_archived :
    getFilesToArchive [("commands", Entry.dir [])] false = [] ∧
    createSnapshotEntries [("commands", Entry.dir [])] false = some [] :=
  ⟨rfl, rfl⟩

/-- C6 counterexample: in a buffer-sourced restore whose primary
operation succeeds, a failure of the `rmSync(tempZip)` cleanup call is
not swallowed — it replaces the primary result with an error, because
that call is not wrapped in a `try`/`catch` inside the `finally`
block. -/
theorem cleanup_failure_not_swallowed :
    (extractDownloadedSnapshot
      { zipEntries := [ArchiveEntry.fileEntry "CLAUDE.md" [1]]
        claudeDir := none, locked := []
        rmZipThrows := false, rmScratchThrows := false }
      { backup := false, force := false }).result = Except.ok () ∧
    (extractDownloadedSnapshot
      { zipEntries := [ArchiveEntry.fileEntry "CLAUDE.md" [1]]
        claudeDir := none, locked := []
        rmZipThrows := true, rmScratchThrows := false }
      { backup := false, force := false }).result =
      Except.error RestoreErr.cleanupFailure :=
  ⟨rfl, rfl⟩

/-- C6 amended: on both success and failure paths the scratch directory
and the temporary archive are removed best-effort, and a failing scratch
removal is swallowed (it never changes the result of either restore
function); but a failing `rmSync` of the temporary archive file of a
buffer-sourced restore is not swallowed — it always replaces the
primary outcome with a cleanup error and also prevents the scratch
removal from running. -/
theorem cleanup_best_effort :
    (∀ (inp : ExtractInput) (opts : RestoreOptions) (b1 b2 : Bool),
      (extractSnapshot { inp with rmScratchThrows := b1 } opts).result =
        (extractSnapshot { inp with rmScratchThrows := b2 } opts).result) ∧
    (∀ (inp : DlInput) (opts : RestoreOptions) (b1 b2 : Bool),
      inp.rmZipThrows = false →
      (extractDownloadedSnapshot { inp with rmScratchThrows := b1 } opts).result =
        (extractDownloadedSnapshot { inp with rmScratchThrows := b2 } opts).result) ∧
    (∀ (inp : DlInput) (opts : RestoreOptions),
      inp.rmZipThrows = true →
      (extractDownloadedSnapshot inp opts).result =
        Except.error RestoreErr.cleanupFailure) ∧
    (∀ (inp : ExtractInput) (opts : RestoreOptions),
      inp.rmScratchThrows = false →
      (extractSnapshot inp opts).scratchRemains = false) ∧
    (∀ (inp : DlInput) (opts : RestoreOptions),
      inp.rmZipThrows = false →
      (extractDownloadedSnapshot inp opts).tempZipRemains = false ∧
      (inp.rmScratchThrows = false →
        (extractDownloadedSnapshot inp opts).scratchRemains = false)) := by
  refine ⟨?_, ?_, ?_, ?_, ?_⟩
  · intro inp opts b1 b2
    obtain ⟨z, c, l, r⟩ := inp
    cases z <;> simp [extractSnapshot] <;> split <;> rfl
  · intro inp opts b1 b2 hz
    obtain ⟨z, c, l, rz, rs⟩ := inp
    simp only at hz
    subst hz
    simp [extractDownloadedSnapshot]
  · intro inp opts hz
    obtain ⟨z, c, l, rz, rs⟩ := inp
    simp only at hz
    subst hz
    simp [extractDownloadedSnapshot]
  · intro inp opts hr
    obtain ⟨z, c, l, r⟩ := inp
    simp only at hr
    subst hr
    cases z <;> simp [extractSnapshot] <;> split <;> rfl
  · intro inp opts hz
    obtain ⟨z, c, l, rz, rs⟩ := inp
    simp only at hz
    subst hz
    refine ⟨by simp [extractDownloadedSnapshot], ?_⟩
    intro hr
    simp only at hr
    subst hr
    simp [extractDownloadedSnapshot]

/-- Witness for the C6 amended theorem at concrete inputs. -/
theorem cleanup_best_effort_witness :
    ((extractDownloadedSnapshot
      { zipEntries := [], claudeDir := none, locked := []
        rmZipThrows := false, rmScratchThrows := true }
      { backup := false, force := false }).result =
      (extractDownloadedSnapshot
        { zipEntries := [], claudeDir := none, locked := []
          rmZipThrows := false, rmScratchThrows := false }
        { backup := false, force := false }).result) ∧
    (extractDownloadedSnapshot
      { zipEntries := [], claudeDir := none, locked := []
        rmZipThrows := true, rmScratchThrows := false }
      { backup := false, force := false }).result =
      Except.error RestoreErr.cleanupFailure :=
  ⟨cleanup_best_effort.2.1
      { zipEntries := [], claudeDir := none, locked := []
        rmZipThrows := false, rmScratchThrows := true }
      { backup := false, force := false } true false rfl,
    cleanup_best_effort.2.2.1
      { zipEntries := [], claudeDir := none, locked := []
        rmZipThrows := true, rmScratchThrows := false }
      { backup := false, force := false } rfl⟩

/-! ## Merge lemmas -/

/-- Unfolding of `copyDirMerge` at the empty listing. -/
theorem copyDirMerge_nil (locked : List String) (pre : String) (dest : Tree) :
    copyDirMerge locked [] pre dest = (dest, none) := by
  rw [copyDirMerge.eq_def]

/-- Unfolding of `copyDirMerge` at a cons: merge the head entry, then
abort on its error or continue on its result. -/
theorem copyDirMerge_cons (locked : List String) (name : String) (e : Entry)
    (rest : Tree) (pre : String) (dest : Tree) :
    copyDirMerge locked ((name, e) :: rest) pre dest =
      match (copyEntryMerge locked name e pre dest).2 with
      | some err => ((copyEntryMerge locked name e pre dest).1, some err)
      | none =>
        copyDirMerge locked rest pre (copyEntryMerge locked name e pre dest).1 := by
  rw [copyDirMerge.eq_def]

/-- Unfolding of `copyDirMerge` at a cons whose head entry merges
cleanly. -/
theorem copyDirMerge_cons_ok (locked : List String) (name : String)
    (e : Entry) (rest : Tree) (pre : String) (dest : Tree)
    (h : (copyEntryMerge locked name e pre dest).2 = none) :
    copyDirMerge locked ((name, e) :: rest) pre dest =
      copyDirMerge locked rest pre (copyEntryMerge locked name e pre dest).1 := by
  rw [copyDirMerge_cons, h]

/-- Unfolding of `copyDirMerge` at a cons whose head entry throws. -/
theorem copyDirMerge_cons_err (locked : List String) (name : String)
    (e : Entry) (rest : Tree) (pre : String) (dest : Tree)
    (err : RestoreErr)
    (h : (copyEntryMerge locked name e pre dest).2 = some err) :
    copyDirMerge locked ((name, e) :: rest) pre dest =
      ((copyEntryMerge locked name e pre dest).1, some err) := by
  rw [copyDirMerge_cons, h]

/-- After a clean merge of a first batch of entries, merging a
concatenation continues from the tree the first batch produced: entries
merged before a later failure stay merged. -/
theorem copyDirMerge_append (locked : List String) (src1 src2 : Tree)
    (pre : String) (dest : Tree)
    (h : (copyDirMerge locked src1 pre dest).2 = none) :
    copyDirMerge locked (src1 ++ src2) pre dest =
      copyDirMerge locked src2 pre (copyDirMerge locked src1 pre dest).1 := by
  induction src1 generalizing dest with
  | nil => simp [copyDirMerge_nil]
  | cons x rest ih =>
    obtain ⟨name, e⟩ := x
    cases hr : (copyEntryMerge locked name e pre dest).2 with
    | some err =>
      rw [copyDirMerge_cons_err locked name e rest pre dest err hr] at h
      simp at h
    | none =>
      rw [copyDirMerge_cons_ok locked name e rest pre dest hr] at h
      rw [copyDirMerge_cons_ok locked name e rest pre dest hr]
      rw [List.cons_append,
        copyDirMerge_cons_ok locked name e (rest ++ src2) pre dest hr]
      exact ih (copyEntryMerge locked name e pre dest).1 h

mutual
/-- If merging one entry throws the distinguished lock error, the name
it carries is the final component of some locked destination path
(entry level). -/
theorem copyEntryMerge_locked_name (locked : List String) (name : String)
    (e : Entry) (pre : String) (dest : Tree) (n : String)
    (h : (copyEntryMerge locked name e pre dest).2 =
      some (RestoreErr.fileLocked n)) :
    ∃ rel, rel ∈ locked ∧ (rel = n ∨ ∃ q, rel = q ++ "/" ++ n) := by
  match e, h with
  | Entry.file c, h =>
    rw [copyEntryMerge.eq_1] at h
    split at h
    · simp at h
    · split at h
      · rename_i hl
        have hn : name = n := by simpa using h
        subst hn
        refine ⟨joinRel pre name, ?_, ?_⟩
        · exact List.mem_of_elem_eq_true hl
        · rw [joinRel]
          split
          · exact Or.inl rfl
          · exact Or.inr ⟨pre, rfl⟩
      · simp at h
  | Entry.dir children, h =>
    rw [copyEntryMerge.eq_2] at h
    split at h
    · simp at h
    · simp only at h
      exact copyDirMerge_locked_name locked children (joinRel pre name)
        _ n h

/-- If a merge throws the distinguished lock error, the name it carries
is the final component of some locked destination path (listing
level). -/
theorem copyDirMerge_locked_name (locked : List String) (src : Tree)
    (pre : String) (dest : Tree) (n : String)
    (h : (copyDirMerge locked src pre dest).2 =
      some (RestoreErr.fileLocked n)) :
    ∃ rel, rel ∈ locked ∧ (rel = n ∨ ∃ q, rel = q ++ "/" ++ n) := by
  match src, h with
  | [], h => rw [copyDirMerge_nil] at h; simp at h
  | (name, e) :: rest, h =>
    cases hr : (copyEntryMerge locked name e pre dest).2 with
    | some err =>
      rw [copyDirMerge_cons_err locked name e rest pre dest err hr] at h
      have herr : err = RestoreErr.fileLocked n := by simpa using h
      subst herr
      exact copyEntryMerge_locked_name locked name e pre dest n hr
    | none =>
      rw [copyDirMerge_cons_ok locked name e rest pre dest hr] at h
      exact copyDirMerge_locked_name locked rest pre
        (copyEntryMerge locked name e pre dest).1 n h
end

/-- C5: if the merge step fails because a destination file is
exclusively locked, the restore aborts with the distinguished
file-locked error, and that error names the locked file (the carried
name is the final path component of a path in the locked set); entries
merged before the failing one remain merged — merging a concatenation
whose first batch succeeds continues from the tree that batch
produced, so an abort inside the second batch keeps the first batch's
files in the destination. -/
theorem merge_lock_error :
    (∀ (locked : List String) (src : Tree) (pre : String) (dest : Tree)
      (n : String),
      (copyDirMerge locked src pre dest).2 =
        some (RestoreErr.fileLocked n) →
      ∃ rel, rel ∈ locked ∧ (rel = n ∨ ∃ q, rel = q ++ "/" ++ n)) ∧
    (∀ (locked : List String) (src1 src2 : Tree) (pre : String)
      (dest : Tree),
      (copyDirMerge locked src1 pre dest).2 = none →
      copyDirMerge locked (src1 ++ src2) pre dest =
        copyDirMerge locked src2 pre (copyDirMerge locked src1 pre dest).1) := by
  constructor
  · intro locked src pre dest n h
    exact copyDirMerge_locked_name locked src pre dest n h
  · intro locked src1 src2 pre dest h
    exact copyDirMerge_append locked src1 src2 pre dest h

/-- Witness for C5 at a concrete merge: `b.md` is locked, the merge of
`[a.md, b.md, c.md]` into an empty destination aborts with the
distinguished error naming `b.md`, and the already-merged `a.md` is
still present. -/
theorem merge_lock_error_witness :
    (∃ rel, rel ∈ ["b.md"] ∧ (rel = "b.md" ∨ ∃ q, rel = q ++ "/" ++ "b.md")) ∧
    copyDirMerge ["b.md"]
        ([("a.md", Entry.file [1])] ++
          [("b.md", Entry.file [2]), ("c.md", Entry.file [3])]) "" [] =
      copyDirMerge ["b.md"] [("b.md", Entry.file [2]), ("c.md", Entry.file [3])]
        ""
        (copyDirMerge ["b.md"] [("a.md", Entry.file [1])] "" []).1 :=
  ⟨merge_lock_error.1 ["b.md"]
      [("b.md", Entry.file [2])] "" [] "b.md" rfl,
    merge_lock_error.2 ["b.md"] [("a.md", Entry.file [1])]
      [("b.md", Entry.file [2]), ("c.md", Entry.file [3])] "" [] rfl⟩

/-! ## Content Summarizer lemmas -/

/-- A path with fewer than two slash-separated segments that is not one
of the two special filenames leaves the summary unchanged. -/
theorem deriveStep_short (c : Contents) (p : String)
    (hlen : (splitSlash p).length < 2)
    (h1 : p ≠ "CLAUDE.md") (h2 : p ≠ "mcp.json") :
    deriveStep c p = c := by
  rw [deriveStep, if_neg h1, if_neg h2]
  cases hs : splitSlash p with
  | nil => rfl
  | cons a as =>
    cases as with
    | nil => rfl
    | cons b bs =>
      rw [hs] at hlen
      simp at hlen
      omega

/-- Mapping a key-preserving update over a summary preserves its key
list. -/
theorem map_fst_update (c : Contents)
    (f : String × List String → String × List String)
    (hf : ∀ p, (f p).1 = p.1) :
    (c.map f).map Prod.fst = c.map Prod.fst := by
  rw [List.map_map]
  exact List.map_congr_left (fun p _ => hf p)

/-- `pushRaw` keeps the key list, adding the category at the end only
when it was absent. -/
theorem pushRaw_keys (c : Contents) (cat item : String) :
    (pushRaw c cat item).map Prod.fst =
      if hasCat c cat then c.map Prod.fst else c.map Prod.fst ++ [cat] := by
  rw [pushRaw]
  split
  · apply map_fst_update
    intro p
    split <;> rfl
  · simp

/-- `pushDedup` keeps the key list, adding the category at the end only
when it was absent. -/
theorem pushDedup_keys (c : Contents) (cat item : String) :
    (pushDedup c cat item).map Prod.fst =
      if hasCat c cat then c.map Prod.fst else c.map Prod.fst ++ [cat] := by
  rw [pushDedup]
  split
  · apply map_fst_update
    intro p
    split <;> rfl
  · simp

/-- A category key missing from the summary is not among its keys. -/
theorem hasCat_false_not_mem (c : Contents) (cat : String)
    (h : hasCat c cat = false) : cat ∉ c.map Prod.fst := by
  rw [hasCat] at h
  rw [List.any_eq_false] at h
  intro hmem
  obtain ⟨p, hp, hfst⟩ := List.mem_map.mp hmem
  exact h p hp (by simp [hfst])

/-- One summarizer step preserves distinctness of the category keys. -/
theorem deriveStep_keys_nodup (c : Contents) (f : String)
    (h : (c.map Prod.fst).Nodup) :
    ((deriveStep c f).map Prod.fst).Nodup := by
  have hpush : ∀ (cat item : String),
      ((pushRaw c cat item).map Prod.fst).Nodup ∧
      ((pushDedup c cat item).map Prod.fst).Nodup := by
    intro cat item
    constructor
    · rw [pushRaw_keys]
      split
      · exact h
      · rename_i hcat
        rw [List.nodup_append]
        refine ⟨h, by simp, ?_⟩
        intro a ha hb
        simp at hb
        subst hb
        exact hasCat_false_not_mem c a (by simpa using hcat) ha
    · rw [pushDedup_keys]
      split
      · exact h
      · rename_i hcat
        rw [List.nodup_append]
        refine ⟨h, by simp, ?_⟩
        intro a ha hb
        simp at hb
        subst hb
        exact hasCat_false_not_mem c a (by simpa using hcat) ha
  rw [deriveStep]
  split
  · exact (hpush "instructions" "CLAUDE.md").1
  · split
    · exact (hpush "mcp" "mcp.json").1
    · split
      · exact (hpush _ _).2
      · exact h

/-- The summary derived from any manifest has pairwise distinct
category keys (JavaScript objects cannot repeat a key). -/
theorem deriveContents_keys_nodup (files : List String) :
    ((deriveContents files).map Prod.fst).Nodup := by
  rw [deriveContents]
  suffices h : ∀ (acc : Contents), (acc.map Prod.fst).Nodup →
      ((files.foldl deriveStep acc).map Prod.fst).Nodup from h [] (by simp)
  induction files with
  | nil => intro acc h; simpa using h
  | cons f rest ih =>
    intro acc h
    rw [List.foldl_cons]
    exact ih _ (deriveStep_keys_nodup acc f h)

/-- Appending a categorized path whose item name is already present in
its category leaves the summary unchanged (first occurrence wins). -/
theorem deriveStep_dup_noop (c : Contents) (p cat item : String)
    (rest : List String) (hs : splitSlash p = cat :: item :: rest)
    (hnodup : (c.map Prod.fst).Nodup) (items : List String)
    (hfind : c.find? (fun q => q.1 == cat) = some (cat, items))
    (hmem : stripExt item ∈ items) :
    deriveStep c p = c := by
  have h1 : p ≠ "CLAUDE.md" := by
    intro he
    subst he
    rw [show splitSlash "CLAUDE.md" = ["CLAUDE.md"] from rfl] at hs
    simp at hs
  have h2 : p ≠ "mcp.json" := by
    intro he
    subst he
    rw [show splitSlash "mcp.json" = ["mcp.json"] from rfl] at hs
    simp at hs
  rw [deriveStep, if_neg h1, if_neg h2, hs]
  show pushDedup c cat (stripExt item) = c
  have hfound_mem : (cat, items) ∈ c := List.mem_of_find?_eq_some hfind
  have hhas : hasCat c cat = true := by
    rw [hasCat]
    exact List.any_eq_true.mpr ⟨(cat, items), hfound_mem, by simp⟩
  rw [pushDedup, if_pos hhas]
  have hpt : ∀ q ∈ c,
      (fun q : String × List String =>
        if q.1 == cat then
          (q.1, if q.2.contains (stripExt item) then q.2
            else q.2 ++ [stripExt item])
        else q) q = q := by
    intro q hq
    by_cases hqc : q.1 = cat
    · have hq2 : q = (cat, items) :=
        List.inj_on_of_nodup_map hnodup hq hfound_mem (by simp [hqc])
      subst hq2
      simp [hmem]
    · simp [hqc]
  rw [List.map_congr_left hpt, List.map_id']

/-- C9: the Content Summarizer maps the manifest
`[CLAUDE.md, commands/foo.md, commands/bar.md]` to exactly
`{instructions: [CLAUDE.md], commands: [foo, bar]}`; for every manifest,
a path with fewer than two slash-separated segments that is neither
`CLAUDE.md` nor `mcp.json` contributes nothing to the summary; and a
categorized path whose item name is already present in its category is
suppressed, the first occurrence winning. -/
theorem summary_correctness :
    deriveContents ["CLAUDE.md", "commands/foo.md", "commands/bar.md"] =
      [("instructions", ["CLAUDE.md"]), ("commands", ["foo", "bar"])] ∧
    (∀ (xs ys : List String) (p : String),
      (splitSlash p).length < 2 → p ≠ "CLAUDE.md" → p ≠ "mcp.json" →
      deriveContents (xs ++ p :: ys) = deriveContents (xs ++ ys)) ∧
    (∀ (files : List String) (p cat item : String) (rest : List String)
      (items : List String),
      splitSlash p = cat :: item :: rest →
      (deriveContents files).find? (fun q => q.1 == cat) =
        some (cat, items) →
      stripExt item ∈ items →
      deriveContents (files ++ [p]) = deriveContents files) := by
  refine ⟨rfl, ?_, ?_⟩
  · intro xs ys p hlen h1 h2
    rw [deriveContents, deriveContents, List.foldl_append, List.foldl_append,
      List.foldl_cons, deriveStep_short _ p hlen h1 h2]
  · intro files p cat item rest items hs hfind hmem
    rw [deriveContents, List.foldl_append, List.foldl_cons, List.foldl_nil]
    exact deriveStep_dup_noop (deriveContents files) p cat item rest hs
      (deriveContents_keys_nodup files) items hfind hmem

/-- Witness for C9 at concrete manifests: `settings.json` is dropped
from the summary, and a second `commands/foo.*` path adds nothing. -/
theorem summary_correctness_witness :
    deriveContents (["CLAUDE.md"] ++ "settings.json" :: ["commands/foo.md"]) =
      deriveContents (["CLAUDE.md"] ++ ["commands/foo.md"]) ∧
    deriveContents (["commands/foo.md"] ++ ["commands/foo.txt"]) =
      deriveContents ["commands/foo.md"] :=
  ⟨summary_correctness.2.1 ["CLAUDE.md"] ["commands/foo.md"] "settings.json"
      (by decide) (by decide) (by decide),
    summary_correctness.2.2 ["commands/foo.md"] "commands/foo.txt"
      "commands" "foo.txt" [] ["foo"] rfl rfl (by decide)⟩

/-! ## MCP enrichment lemmas -/

/-- `pushRaw` leaves the target category present. -/
theorem hasCat_pushRaw_self (c : Contents) (cat item : String) :
    hasCat (pushRaw c cat item) cat = true := by
  rw [hasCat, List.any_eq_true]
  rw [pushRaw]
  split
  · rename_i h
    rw [hasCat, List.any_eq_true] at h
    obtain ⟨q, hq, hqc⟩ := h
    refine ⟨(q.1, q.2 ++ [item]), ?_, by simpa using hqc⟩
    exact List.mem_map.mpr ⟨q, hq, by simp [hqc]⟩
  · exact ⟨(cat, [item]), by simp, by simp⟩

/-- Any summarizer step preserves an existing category. -/
theorem hasCat_deriveStep_mono (c : Contents) (f k : String)
    (h : hasCat c k = true) : hasCat (deriveStep c f) k = true := by
  have hkeep : ∀ (cat item : String)
      (g : String × List String → String × List String),
      (∀ p, (g p).1 = p.1) → hasCat (c.map g) k = true := by
    intro cat item g hg
    rw [hasCat, List.any_eq_true] at h ⊢
    obtain ⟨q, hq, hqc⟩ := h
    exact ⟨g q, List.mem_map.mpr ⟨q, hq, rfl⟩, by rw [hg q]; exact hqc⟩
  have happ : ∀ (x : String × List String),
      hasCat (c ++ [x]) k = true := by
    intro x
    rw [hasCat, List.any_eq_true] at h ⊢
    obtain ⟨q, hq, hqc⟩ := h
    exact ⟨q, List.mem_append_left _ hq, hqc⟩
  have hpush : ∀ (cat item : String), hasCat (pushRaw c cat item) k = true ∧
      hasCat (pushDedup c cat item) k = true := by
    intro cat item
    constructor
    · rw [pushRaw]
      split
      · exact hkeep cat item _ (fun p => by split <;> rfl)
      · exact happ _
    · rw [pushDedup]
      split
      · exact hkeep cat item _ (fun p => by split <;> rfl)
      · exact happ _
  rw [deriveStep]
  split
  · exact (hpush "instructions" "CLAUDE.md").1
  · split
    · exact (hpush "mcp" "mcp.json").1
    · split
      · exact (hpush _ _).2
      · exact h

/-- A manifest containing `mcp.json` always yields a summary with an
`mcp` category. -/
theorem deriveContents_hasCat_mcp (files : List String)
    (h : "mcp.json" ∈ files) :
    hasCat (deriveContents files) "mcp" = true := by
  rw [deriveContents]
  suffices hgen : ∀ (fs : List String) (acc : Contents), "mcp.json" ∈ fs ∨
      hasCat acc "mcp" = true →
      hasCat (fs.foldl deriveStep acc) "mcp" = true from
    hgen files [] (Or.inl h)
  intro fs
  induction fs with
  | nil =>
    intro acc hacc
    rcases hacc with hacc | hacc
    · simp at hacc
    · simpa using hacc
  | cons f rest ih =>
    intro acc hacc
    rw [List.foldl_cons]
    rcases hacc with hacc | hacc
    · rcases List.mem_cons.mp hacc with hf | hf
      · subst hf
        refine ih _ (Or.inr ?_)
        rw [deriveStep]
        rw [if_neg (by decide), if_pos rfl]
        exact hasCat_pushRaw_self acc "mcp" "mcp.json"
      · exact ih _ (Or.inl hf)
    · exact ih _ (Or.inr (hasCat_deriveStep_mono acc f "mcp" hacc))

/-- C10: for a manifest containing `mcp.json`, when the source root is
supplied and `mcp.json` parses with a non-empty key set, the `mcp`
category is replaced by that key set; an absent file, a failed
read/parse, or an empty key set silently keeps the unenriched summary
(the function is total — no error is raised). -/
theorem mcp_enrichment :
    ∀ (files : List String), "mcp.json" ∈ files →
      (∀ (names : List String), names ≠ [] →
        deriveContentsWithMcp files (some (McpSource.parsed names)) =
          setCat (deriveContents files) "mcp" names) ∧
      deriveContentsWithMcp files (some McpSource.absent) =
        deriveContents files ∧
      deriveContentsWithMcp files (some McpSource.unreadable) =
        deriveContents files ∧
      deriveContentsWithMcp files (some (McpSource.parsed [])) =
        deriveContents files := by
  intro files hmem
  have hhas := deriveContents_hasCat_mcp files hmem
  refine ⟨?_, ?_, ?_, ?_⟩
  · intro names hne
    show (if hasCat (deriveContents files) "mcp" then
        if names.length > 0 then setCat (deriveContents files) "mcp" names
        else deriveContents files
      else deriveContents files) =
      setCat (deriveContents files) "mcp" names
    rw [if_pos hhas, if_pos (by simpa [List.length_pos] using hne)]
  · show (if hasCat (deriveContents files) "mcp" then deriveContents files
      else deriveContents files) = deriveContents files
    exact ite_self _
  · show (if hasCat (deriveContents files) "mcp" then deriveContents files
      else deriveContents files) = deriveContents files
    exact ite_self _
  · show (if hasCat (deriveContents files) "mcp" then
        if (0 : Nat) > 0 then setCat (deriveContents files) "mcp" []
        else deriveContents files
      else deriveContents files) = deriveContents files
    simp

/-- Witness for C10 at a concrete manifest and parse results. -/
theorem mcp_enrichment_witness :
    deriveContentsWithMcp ["mcp.json"]
        (some (McpSource.parsed ["github", "linear"])) =
      setCat (deriveContents ["mcp.json"]) "mcp" ["github", "linear"] ∧
    deriveContentsWithMcp ["mcp.json"] (some McpSource.unreadable) =
      deriveContents ["mcp.json"] :=
  ⟨(mcp_enrichment ["mcp.json"] (by decide)).1 ["github", "linear"]
      (by decide),
    (mcp_enrichment ["mcp.json"] (by decide)).2.2.1⟩

/-! ## Path segmentation lemmas -/

/-- Rebuilding a string from its data. -/
theorem mk_data (s : String) : String.mk s.data = s := by
  cases s
  rfl

/-- Splitter step at the end of the input. -/
theorem splitSegsAux_nil (acc : List Char) :
    splitSegsAux acc [] = [acc.reverse] := rfl

/-- Splitter step at a slash: close the current segment. -/
theorem splitSegsAux_slash (acc rest : List Char) :
    splitSegsAux acc ('/' :: rest) = acc.reverse :: splitSegsAux [] rest := by
  rw [splitSegsAux]
  simp

/-- Splitter step at a non-slash character: extend the current
segment. -/
theorem splitSegsAux_char (c : Char) (hc : c ≠ '/') (acc rest : List Char) :
    splitSegsAux acc (c :: rest) = splitSegsAux (c :: acc) rest := by
  rw [splitSegsAux]
  simp [hc]

/-- Splitting characters without a slash yields one segment. -/
theorem splitSegsAux_no_slash (n : List Char) (hn : '/' ∉ n) :
    ∀ (acc : List Char), splitSegsAux acc n = [acc.reverse ++ n] := by
  induction n with
  | nil => intro acc; simp [splitSegsAux_nil]
  | cons c rest ih =>
    intro acc
    have hc : c ≠ '/' := fun h => hn (by rw [← h]; exact List.mem_cons_self c rest)
    rw [splitSegsAux_char c hc]
    rw [ih (fun h => hn (List.mem_cons_of_mem c h)) (c :: acc)]
    simp

/-- Splitting around a final slash-free component appends one
segment. -/
theorem splitSegsAux_append_slash (n : List Char) (hn : '/' ∉ n)
    (l : List Char) : ∀ (acc : List Char),
    splitSegsAux acc (l ++ '/' :: n) = splitSegsAux acc l ++ [n] := by
  induction l with
  | nil =>
    intro acc
    rw [List.nil_append, splitSegsAux_slash, splitSegsAux_no_slash n hn [],
      splitSegsAux_nil]
    simp
  | cons c rest ih =>
    intro acc
    by_cases hc : c = '/'
    · subst hc
      rw [List.cons_append, splitSegsAux_slash, ih, splitSegsAux_slash]
      simp
    · rw [List.cons_append, splitSegsAux_char c hc, ih,
        splitSegsAux_char c hc]

/-- A slash-free string is its own single segment. -/
theorem splitSlash_no_slash (s : String) (hs : '/' ∉ s.data) :
    splitSlash s = [s] := by
  rw [splitSlash, splitSegsAux_no_slash s.data hs []]
  simp [mk_data]

/-- `split('/')` of `pre ++ "/" ++ name` for a slash-free `name`. -/
theorem splitSlash_append (pre name : String) (hn : '/' ∉ name.data) :
    splitSlash (pre ++ "/" ++ name) = splitSlash pre ++ [name] := by
  rw [splitSlash, splitSlash]
  have hd : (pre ++ "/" ++ name).data = pre.data ++ '/' :: name.data := by
    simp
  rw [hd, splitSegsAux_append_slash name.data hn pre.data []]
  simp [mk_data]

/-- A valid entry name is non-empty. -/
theorem validName_ne_empty (n : String) (h : validName n = true) : n ≠ "" := by
  rw [validName] at h
  intro he
  subst he
  simp at h

/-- A valid entry name contains no slash. -/
theorem validName_no_slash (n : String) (h : validName n = true) :
    '/' ∉ n.data := by
  intro hmem
  rw [validName] at h
  simp only [Bool.and_eq_true] at h
  have hc : n.data.contains '/' = true :=
    List.contains_iff_exists_mem_beq.mpr ⟨'/', hmem, by simp⟩
  rw [hc] at h
  simp at h

/-- Joining a valid name onto a relative prefix is never the empty
path. -/
theorem joinRel_ne_empty (pre name : String) (hv : validName name = true) :
    joinRel pre name ≠ "" := by
  rw [joinRel]
  split
  · exact validName_ne_empty name hv
  · intro he
    have := congrArg String.data he
    simp at this

/-- `split('/')` of a joined relative path: the prefix segments then the
name. -/
theorem splitSlash_joinRel (pre name : String) (hv : validName name = true) :
    splitSlash (joinRel pre name) = preSegs pre ++ [name] := by
  rw [joinRel]
  split
  · rename_i hpre
    rw [preSegs, if_pos hpre, splitSlash_no_slash name (validName_no_slash name hv)]
    simp
  · rename_i hpre
    rw [preSegs, if_neg hpre, splitSlash_append pre name (validName_no_slash name hv)]

/-- Prefix segments of a joined relative path. -/
theorem preSegs_joinRel (pre name : String) (hv : validName name = true) :
    preSegs (joinRel pre name) = preSegs pre ++ [name] := by
  rw [preSegs, if_neg (joinRel_ne_empty pre name hv)]
  exact splitSlash_joinRel pre name hv

/-! ## Resolution lemmas -/

/-- Resolving the empty segment list finds nothing. -/
theorem resolveSegs_nil (t : Tree) : resolveSegs t [] = none := rfl

/-- Resolving one segment is a direct lookup. -/
theorem resolveSegs_single (t : Tree) (n : String) :
    resolveSegs t [n] = findEntry t n := rfl

/-- Resolving two or more segments descends through a directory. -/
theorem resolveSegs_cons2 (t : Tree) (n m : String) (rest : List String) :
    resolveSegs t (n :: m :: rest) =
      (match findEntry t n with
       | some (Entry.dir ch) => resolveSegs ch (m :: rest)
       | _ => none) := rfl

/-- No remaining segments select the entry itself. -/
theorem resolveInEntry_nil (e : Entry) : resolveInEntry e [] = some e := rfl

/-- Remaining segments descend into a directory entry. -/
theorem resolveInEntry_dir (ch : Tree) (m : String) (r : List String) :
    resolveInEntry (Entry.dir ch) (m :: r) = resolveSegs ch (m :: r) := rfl

/-- Lookup at the head name. -/
theorem findEntry_cons_self (n : String) (e : Entry) (rest : Tree) :
    findEntry ((n, e) :: rest) n = some e := by
  simp [findEntry]

/-- Lookup skips a head with a different name. -/
theorem findEntry_cons_ne (m n : String) (e : Entry) (rest : Tree)
    (h : m ≠ n) : findEntry ((n, e) :: rest) m = findEntry rest m := by
  rw [findEntry, findEntry, List.find?_cons_of_neg]
  simp
  exact fun hh => h hh.symm

/-- Resolution only inspects the looked-up name at each level. -/
theorem resolveSegs_congr (t1 t2 : Tree) (n : String) (rest : List String)
    (h : findEntry t1 n = findEntry t2 n) :
    resolveSegs t1 (n :: rest) = resolveSegs t2 (n :: rest) := by
  cases rest with
  | nil => rw [resolveSegs_single, resolveSegs_single, h]
  | cons m r => rw [resolveSegs_cons2, resolveSegs_cons2, h]

/-- Resolution through a found entry continues inside that entry. -/
theorem resolveSegs_cons_entry (t : Tree) (n : String) (e : Entry)
    (rest : List String) (h : findEntry t n = some e) :
    resolveSegs t (n :: rest) = resolveInEntry e rest := by
  cases rest with
  | nil => rw [resolveSegs_single, h, resolveInEntry]
  | cons m r =>
    rw [resolveSegs_cons2, h]
    cases e with
    | file c => rfl
    | dir ch => rfl

/-- Destructuring well-formedness of a non-empty listing. -/
theorem wfTree_cons (n : String) (e : Entry) (rest : Tree)
    (h : wfTree ((n, e) :: rest) = true) :
    validName n = true ∧ n ∉ rest.map Prod.fst ∧ wfEntry e = true ∧
      wfTree rest = true := by
  rw [wfTree.eq_2] at h
  simp only [Bool.and_eq_true] at h
  refine ⟨h.1.1.1, ?_, h.1.2, h.2⟩
  intro hmem
  have hc : (rest.map Prod.fst).contains n = true :=
    List.contains_iff_exists_mem_beq.mpr ⟨n, hmem, by simp⟩
  have := h.1.1.2
  rw [hc] at this
  simp at this

/-- Well-formedness of a directory entry is that of its listing. -/
theorem wfEntry_dir (ch : Tree) : wfEntry (Entry.dir ch) = wfTree ch := by
  rw [wfEntry.eq_def]

mutual
/-- Every path emitted while visiting one well-formed entry resolves,
inside that entry, to a file — and its segments are the accumulated
prefix segments, then the entry name, then the segments inside the
entry. -/
theorem walkEntry_resolve (excludes : List String) (name : String)
    (e : Entry) (pre p : String) (hv : validName name = true)
    (hw : wfEntry e = true) (hp : p ∈ walkEntry excludes name e pre) :
    ∃ rel c, splitSlash p = preSegs pre ++ name :: rel ∧
      resolveInEntry e rel = some (Entry.file c) := by
  match e, hw, hp with
  | Entry.file c, hw, hp =>
    rw [walkEntry_file] at hp
    simp at hp
    obtain ⟨hA, hE, hp2⟩ := hp
    subst hp2
    refine ⟨[], c, ?_, rfl⟩
    simpa using splitSlash_joinRel pre name hv
  | Entry.dir children, hw, hp =>
    rw [walkEntry_dir] at hp
    split at hp
    · simp at hp
    · split at hp
      · simp at hp
      · have hwch : wfTree children = true := by rw [← wfEntry_dir]; exact hw
        obtain ⟨n, rel, c, hsegs, hnmem, hres⟩ :=
          walkTree_resolve excludes children (joinRel pre name) p hwch hp
        refine ⟨n :: rel, c, ?_, ?_⟩
        · rw [hsegs, preSegs_joinRel pre name hv]
          simp
        · rw [resolveInEntry_dir]
          exact hres

/-- Every path emitted by the walk of a well-formed listing resolves in
that listing to a file, starting at a name present in the listing. -/
theorem walkTree_resolve (excludes : List String) (t : Tree)
    (pre p : String) (hw : wfTree t = true)
    (hp : p ∈ walkTree excludes t pre) :
    ∃ n rel c, splitSlash p = preSegs pre ++ n :: rel ∧
      n ∈ t.map Prod.fst ∧
      resolveSegs t (n :: rel) = some (Entry.file c) := by
  match t, hw, hp with
  | (name, e) :: rest, hw, hp =>
    obtain ⟨hv, hnmem, hwe, hwr⟩ := wfTree_cons name e rest hw
    rw [walkTree] at hp
    rcases List.mem_append.mp hp with h | h
    · obtain ⟨rel, c, hsegs, hres⟩ :=
        walkEntry_resolve excludes name e pre p hv hwe h
      refine ⟨name, rel, c, hsegs, by simp, ?_⟩
      rw [resolveSegs_cons_entry _ name e rel (findEntry_cons_self name e rest)]
      exact hres
    · obtain ⟨n, rel, c, hsegs, hn, hres⟩ :=
        walkTree_resolve excludes rest pre p hwr h
      have hne : n ≠ name := fun hh => hnmem (hh ▸ hn)
      refine ⟨n, rel, c, hsegs, by simp [hn], ?_⟩
      rw [resolveSegs_congr _ rest n rel (findEntry_cons_ne n name e rest hne)]
      exact hres
end

/-- Every path the Selector emits from a well-formed tree stats as a
file at that relative path. -/
theorem walk_statPath (t : Tree) (s : Bool) (hw : wfTree t = true)
    (p : String) (hp : p ∈ getFilesToArchive t s) :
    ∃ c, statPath t p = some (Entry.file c) := by
  obtain ⟨n, rel, c, hsegs, _, hres⟩ :=
    walkTree_resolve (if s then [] else DEFAULT_EXCLUDES) t "" p hw hp
  refine ⟨c, ?_⟩
  rw [statPath, hsegs]
  simpa [preSegs] using hres

mutual
/-- The paths emitted from one well-formed entry have pairwise distinct
segment lists. -/
theorem walkEntry_nodupSegs (excludes : List String) (name : String)
    (e : Entry) (pre : String) (hw : wfEntry e = true) :
    ((walkEntry excludes name e pre).map splitSlash).Nodup := by
  match e, hw with
  | Entry.file c, hw =>
    rw [walkEntry_file]
    split
    · simp
    · split <;> simp
  | Entry.dir children, hw =>
    rw [walkEntry_dir]
    split
    · simp
    · split
      · simp
      · exact walkTree_nodupSegs excludes children (joinRel pre name)
          (by rw [← wfEntry_dir]; exact hw)

/-- The paths emitted from a well-formed listing have pairwise distinct
segment lists. -/
theorem walkTree_nodupSegs (excludes : List String) (t : Tree)
    (pre : String) (hw : wfTree t = true) :
    ((walkTree excludes t pre).map splitSlash).Nodup := by
  match t, hw with
  | [], hw => rw [walkTree]; simp
  | (name, e) :: rest, hw =>
    obtain ⟨hv, hnmem, hwe, hwr⟩ := wfTree_cons name e rest hw
    rw [walkTree]
    rw [List.map_append, List.nodup_append]
    refine ⟨walkEntry_nodupSegs excludes name e pre hwe,
      walkTree_nodupSegs excludes rest pre hwr, ?_⟩
    intro x hx hy
    obtain ⟨pA, hpA, hxA⟩ := List.mem_map.mp hx
    obtain ⟨pB, hpB, hxB⟩ := List.mem_map.mp hy
    obtain ⟨relA, cA, hsA, _⟩ :=
      walkEntry_resolve excludes name e pre pA hv hwe hpA
    obtain ⟨n, relB, cB, hsB, hnB, _⟩ :=
      walkTree_resolve excludes rest pre pB hwr hpB
    have hsame : splitSlash pA = splitSlash pB := by rw [hxA, hxB]
    rw [hsA, hsB] at hsame
    have htl := List.append_cancel_left hsame
    have hne : n ≠ name := fun hh => hnmem (hh ▸ hnB)
    simp at htl
    exact hne htl.1.symm
end

/-- Resolving a longer segment list passes through the resolution of a
non-empty prefix of it. -/
theorem resolveSegs_append (l1 : List String) : ∀ (t : Tree)
    (l2 : List String), l2 ≠ [] → l1 ≠ [] →
    resolveSegs t (l1 ++ l2) =
      (match resolveSegs t l1 with
       | some (Entry.dir ch) => resolveSegs ch l2
       | _ => none) := by
  induction l1 with
  | nil => intro t l2 h2 h1; simp at h1
  | cons n rest ih =>
    intro t l2 h2 _
    cases rest with
    | nil =>
      rw [List.cons_append, List.nil_append, resolveSegs_single]
      cases l2 with
      | nil => simp at h2
      | cons m r => rw [resolveSegs_cons2]
    | cons m r =>
      rw [List.cons_append, List.cons_append, resolveSegs_cons2,
        resolveSegs_cons2]
      cases hf : findEntry t n with
      | none => rfl
      | some e =>
        cases e with
        | file c => rfl
        | dir ch =>
          have hih := ih ch l2 h2 (by simp)
          rw [List.cons_append] at hih
          exact hih

/-- Two distinct segment lists that both resolve to files cannot be
prefixes of one another. -/
theorem resolve_file_not_nested (t : Tree) (la lb : List String)
    (ca cb : List Nat) (hra : resolveSegs t la = some (Entry.file ca))
    (hrb : resolveSegs t lb = some (Entry.file cb)) (hne : la ≠ lb) :
    ¬ la <+: lb := by
  intro hpre
  obtain ⟨u, hu⟩ := hpre
  have hune : u ≠ [] := by
    intro h0
    subst h0
    rw [List.append_nil] at hu
    exact hne hu
  have hane : la ≠ [] := by
    intro h0
    rw [h0, resolveSegs_nil] at hra
    exact Option.noConfusion hra
  rw [← hu, resolveSegs_append la t u hune hane, hra] at hrb
  simp at hrb

/-- The paths the Selector emits from a well-formed tree are pairwise
non-nested: no emitted path's segments are a prefix of another's. -/
theorem emitted_pairwise (t : Tree) (s : Bool) (hw : wfTree t = true) :
    (getFilesToArchive t s).Pairwise (fun p q =>
      ¬ splitSlash p <+: splitSlash q ∧ ¬ splitSlash q <+: splitSlash p) := by
  have hnd : ((getFilesToArchive t s).map splitSlash).Nodup :=
    walkTree_nodupSegs (if s then [] else DEFAULT_EXCLUDES) t "" hw
  have hnd2 := List.pairwise_map.mp hnd
  refine hnd2.imp_of_mem ?_
  intro a b ha hb hne
  obtain ⟨ca, hca⟩ := walk_statPath t s hw a ha
  obtain ⟨cb, hcb⟩ := walk_statPath t s hw b hb
  rw [statPath] at hca hcb
  exact ⟨resolve_file_not_nested t (splitSlash a) (splitSlash b) ca cb
      hca hcb hne,
    resolve_file_not_nested t (splitSlash b) (splitSlash a) cb ca
      hcb hca (fun h => hne h.symm)⟩

/-! ## Write and extraction lemmas -/

/-- Lookup at a cons, as a conditional. -/
theorem findEntry_cons (q : String × Entry) (rest : Tree) (m : String) :
    findEntry (q :: rest) m =
      if q.1 == m then some q.2 else findEntry rest m := by
  rw [findEntry, List.find?_cons]
  by_cases h : q.1 == m <;> simp [h, findEntry]

/-- Lookup distributes over append. -/
theorem findEntry_append (t1 t2 : Tree) (m : String) :
    findEntry (t1 ++ t2) m = (findEntry t1 m).or (findEntry t2 m) := by
  rw [findEntry, findEntry, findEntry, List.find?_append]
  cases List.find? (fun p => p.1 == m) t1 <;> simp

/-- Lookup after a key-preserving map that fixes the searched key. -/
theorem findEntry_map_keyfix (t : Tree)
    (f : String × Entry → String × Entry) (m : String)
    (hv : ∀ q, q.1 = m → f q = q) (hk : ∀ q, (f q).1 = q.1) :
    findEntry (t.map f) m = findEntry t m := by
  induction t with
  | nil => rfl
  | cons q rest ih =>
    rw [List.map_cons, findEntry_cons, findEntry_cons, hk q, ih]
    by_cases hq : q.1 = m
    · rw [hv q hq]
    · rw [if_neg (by simpa using hq), if_neg (by simpa using hq)]

/-- Writing at a name makes lookup of that name find the written
entry. -/
theorem findEntry_setEntry_self (t : Tree) (n : String) (e : Entry) :
    findEntry (setEntry t n e) n = some e := by
  induction t with
  | nil =>
    rw [setEntry]
    simp [findEntry]
  | cons q rest ih =>
    rw [setEntry]
    by_cases hq : q.1 = n
    · rw [if_pos (by simp [hq])]
      rw [List.map_cons, if_pos (show (q.1 == n) = true by simp [hq]),
        findEntry_cons]
      simp
    · have hcond : ((q :: rest).any (fun p => p.1 == n)) =
          (rest.any (fun p => p.1 == n)) := by
        simp [List.any_cons, hq]
      by_cases hrest : rest.any (fun p => p.1 == n) = true
      · rw [if_pos (by rw [hcond]; exact hrest)]
        rw [List.map_cons, if_neg (show ¬(q.1 == n) = true by simp [hq]),
          findEntry_cons, if_neg (by simpa using hq)]
        rw [setEntry, if_pos hrest] at ih
        exact ih
      · rw [if_neg (by rw [hcond]; simpa using hrest)]
        rw [List.cons_append, findEntry_cons, if_neg (by simpa using hq)]
        rw [setEntry, if_neg (by simpa using hrest)] at ih
        exact ih

/-- Writing at a name leaves lookup of any other name unchanged. -/
theorem findEntry_setEntry_ne (t : Tree) (n m : String) (e : Entry)
    (h : m ≠ n) : findEntry (setEntry t n e) m = findEntry t m := by
  rw [setEntry]
  split
  · apply findEntry_map_keyfix
    · intro q hq
      rw [if_neg (by simp [hq, h])]
    · intro q
      split
      · rename_i hh
        simp at hh
        rw [hh]
      · rfl
  · rw [findEntry_append]
    cases hf : findEntry t m with
    | some e2 => rfl
    | none =>
      simp [findEntry_cons, findEntry, Ne.symm h]

/-- Resolution in the empty listing finds nothing. -/
theorem resolveSegs_empty (l : List String) : resolveSegs [] l = none := by
  cases l with
  | nil => rfl
  | cons n rest => cases rest with
    | nil => rfl
    | cons m r => rfl

/-- Unfolding of `insertPath` at a single segment. -/
theorem insertPath_single (t : Tree) (n : String) (c : List Nat) :
    insertPath t [n] c = setEntry t n (Entry.file c) := by
  rw [insertPath]

/-- Unfolding of `insertPath` at two or more segments. -/
theorem insertPath_cons2 (t : Tree) (n m : String) (r : List String)
    (c : List Nat) :
    insertPath t (n :: m :: r) c =
      setEntry t n (Entry.dir (insertPath
        (match findEntry t n with
         | some (Entry.dir ch) => ch
         | _ => []) (m :: r) c)) := by
  rw [insertPath]
  exact List.cons_ne_nil m r

/-- Resolving the path just written finds the written file. -/
theorem resolveSegs_insertPath_self (l : List String) : ∀ (t : Tree)
    (c : List Nat), l ≠ [] →
    resolveSegs (insertPath t l c) l = some (Entry.file c) := by
  induction l with
  | nil => intro t c h; simp at h
  | cons n rest ih =>
    intro t c _
    cases rest with
    | nil =>
      rw [insertPath_single, resolveSegs_single]
      exact findEntry_setEntry_self t n (Entry.file c)
    | cons m r =>
      rw [insertPath_cons2, resolveSegs_cons2, findEntry_setEntry_self]
      exact ih _ c (List.cons_ne_nil m r)

/-- Writing one path does not disturb resolution of any path that is
not nested with it. -/
theorem resolveSegs_insertPath_other (l : List String) : ∀ (l2 : List String)
    (t : Tree) (c : List Nat), ¬ l <+: l2 → ¬ l2 <+: l →
    resolveSegs (insertPath t l c) l2 = resolveSegs t l2 := by
  induction l with
  | nil => intro l2 t c h1 h2; rw [insertPath]
  | cons n rest ih =>
    intro l2 t c h1 h2
    cases l2 with
    | nil => rw [resolveSegs_nil, resolveSegs_nil]
    | cons m r2 =>
      by_cases hnm : n = m
      · subst hnm
        cases rest with
        | nil => exact absurd ⟨r2, rfl⟩ h1
        | cons r1a r1b =>
          cases r2 with
          | nil => exact absurd ⟨r1a :: r1b, rfl⟩ h2
          | cons s1 s2 =>
            rw [insertPath_cons2, resolveSegs_cons2, resolveSegs_cons2,
              findEntry_setEntry_self]
            have hr1 : ¬ (r1a :: r1b) <+: (s1 :: s2) := by
              intro hh
              obtain ⟨u, hu⟩ := hh
              exact h1 ⟨u, congrArg (List.cons n) hu⟩
            have hr2 : ¬ (s1 :: s2) <+: (r1a :: r1b) := by
              intro hh
              obtain ⟨u, hu⟩ := hh
              exact h2 ⟨u, congrArg (List.cons n) hu⟩
            cases hf : findEntry t n with
            | none =>
              show resolveSegs (insertPath [] (r1a :: r1b) c) (s1 :: s2) = none
              rw [ih (s1 :: s2) [] c hr1 hr2, resolveSegs_empty]
            | some e =>
              cases e with
              | file cf =>
                show resolveSegs (insertPath [] (r1a :: r1b) c) (s1 :: s2) =
                  none
                rw [ih (s1 :: s2) [] c hr1 hr2, resolveSegs_empty]
              | dir ch =>
                show resolveSegs (insertPath ch (r1a :: r1b) c) (s1 :: s2) =
                  resolveSegs ch (s1 :: s2)
                exact ih (s1 :: s2) ch c hr1 hr2
      · have hne : findEntry (insertPath t (n :: rest) c) m = findEntry t m := by
          cases rest with
          | nil =>
            rw [insertPath_single]
            exact findEntry_setEntry_ne t n m _ (Ne.symm hnm)
          | cons r1a r1b =>
            rw [insertPath_cons2]
            exact findEntry_setEntry_ne t n m _ (Ne.symm hnm)
        exact resolveSegs_congr _ t m r2 hne

/-- Extraction of one file entry, unfolded. -/
theorem extractOne_fileEntry (t : Tree) (q : String) (d : List Nat) :
    extractOne t (ArchiveEntry.fileEntry q d) = insertPath t (splitSlash q) d :=
  rfl

/-- Extracting file entries whose paths are not nested with `l2`
preserves resolution at `l2`. -/
theorem extractFold_preserve (es : List ArchiveEntry) : ∀ (t : Tree)
    (l2 : List String),
    (∀ e ∈ es, ∀ q d, e = ArchiveEntry.fileEntry q d →
      ¬ splitSlash q <+: l2 ∧ ¬ l2 <+: splitSlash q) →
    (∀ e ∈ es, ∃ q d, e = ArchiveEntry.fileEntry q d) →
    resolveSegs (es.foldl extractOne t) l2 = resolveSegs t l2 := by
  induction es with
  | nil => intro t l2 _ _; rfl
  | cons e rest ih =>
    intro t l2 hni hall
    obtain ⟨q, d, he⟩ := hall e (List.mem_cons_self e rest)
    subst he
    rw [List.foldl_cons]
    have hq := hni _ (List.mem_cons_self _ _) q d rfl
    rw [ih (extractOne t (ArchiveEntry.fileEntry q d)) l2
      (fun e2 he2 => hni e2 (List.mem_cons_of_mem _ he2))
      (fun e2 he2 => hall e2 (List.mem_cons_of_mem _ he2))]
    rw [extractOne_fileEntry]
    exact resolveSegs_insertPath_other (splitSlash q) l2 t d hq.1 hq.2

/-- Extracting a pairwise non-nested list of file entries produces each
file at its own path. -/
theorem extractFold_get (es : List ArchiveEntry) : ∀ (t : Tree) (p : String)
    (c : List Nat),
    ArchiveEntry.fileEntry p c ∈ es →
    splitSlash p ≠ [] →
    es.Pairwise (fun e1 e2 => ∀ q1 d1 q2 d2,
      e1 = ArchiveEntry.fileEntry q1 d1 → e2 = ArchiveEntry.fileEntry q2 d2 →
      ¬ splitSlash q1 <+: splitSlash q2 ∧ ¬ splitSlash q2 <+: splitSlash q1) →
    (∀ e ∈ es, ∃ q d, e = ArchiveEntry.fileEntry q d) →
    resolveSegs (es.foldl extractOne t) (splitSlash p) =
      some (Entry.file c) := by
  induction es with
  | nil => intro t p c hmem; simp at hmem
  | cons e rest ih =>
    intro t p c hmem hne hpair hall
    rw [List.foldl_cons]
    rcases List.mem_cons.mp hmem with he | he
    · have hpr := (List.pairwise_cons.mp hpair).1
      rw [extractFold_preserve rest _ (splitSlash p) ?pres ?pall]
      case pres =>
        intro e2 he2 q d he2q
        have hrel := hpr e2 he2 p c q d he.symm he2q
        exact ⟨hrel.2, hrel.1⟩
      case pall =>
        exact fun e2 he2 => hall e2 (List.mem_cons_of_mem e he2)
      rw [← he, extractOne_fileEntry]
      exact resolveSegs_insertPath_self (splitSlash p) t c hne
    · exact ih (extractOne t e) p c he hne (List.pairwise_cons.mp hpair).2
        (fun e2 he2 => hall e2 (List.mem_cons_of_mem e he2))

/-! ## Distinct names are preserved by extraction -/

/-- A name list that does not hold `n` tests `contains n` false. -/
theorem contains_false_of_not_mem (l : List String) (n : String)
    (h : n ∉ l) : l.contains n = false := by
  cases hc : l.contains n with
  | false => rfl
  | true =>
    obtain ⟨x, hx, hbeq⟩ := List.contains_iff_exists_mem_beq.mp hc
    have hxn : n = x := by simpa using hbeq
    exact absurd (by rw [hxn]; exact hx) h

/-- Destructuring deep name-distinctness of a non-empty listing. -/
theorem nodupTree_cons (n : String) (e : Entry) (rest : Tree)
    (h : nodupTree ((n, e) :: rest) = true) :
    n ∉ rest.map Prod.fst ∧ nodupEntry e = true ∧ nodupTree rest = true := by
  rw [nodupTree.eq_2] at h
  simp only [Bool.and_eq_true] at h
  refine ⟨?_, h.1.2, h.2⟩
  intro hmem
  have hc : (rest.map Prod.fst).contains n = true :=
    List.contains_iff_exists_mem_beq.mpr ⟨n, hmem, by simp⟩
  have := h.1.1
  rw [hc] at this
  simp at this

/-- Building deep name-distinctness of a non-empty listing. -/
theorem nodupTree_cons_of (n : String) (e : Entry) (rest : Tree)
    (h1 : n ∉ rest.map Prod.fst) (h2 : nodupEntry e = true)
    (h3 : nodupTree rest = true) : nodupTree ((n, e) :: rest) = true := by
  rw [nodupTree.eq_2]
  rw [contains_false_of_not_mem _ n h1, h2, h3]
  rfl

/-- Name-distinctness inside a directory entry is that of its
listing. -/
theorem nodupEntry_dir (ch : Tree) :
    nodupEntry (Entry.dir ch) = nodupTree ch := by
  rw [nodupEntry.eq_def]

/-- Every entry of a deeply name-distinct listing is deeply
name-distinct. -/
theorem nodupEntry_of_mem (t : Tree) (hnd : nodupTree t = true)
    (q : String × Entry) (hq : q ∈ t) : nodupEntry q.2 = true := by
  induction t with
  | nil => simp at hq
  | cons x rest ih =>
    obtain ⟨xn, xe⟩ := x
    obtain ⟨h1, h2, h3⟩ := nodupTree_cons xn xe rest hnd
    rcases List.mem_cons.mp hq with hq | hq
    · rw [hq]; exact h2
    · exact ih h3 hq

/-- Keys after a key-preserving map. -/
theorem tree_map_fst (t : Tree) (f : String × Entry → String × Entry)
    (hk : ∀ q, (f q).1 = q.1) :
    (t.map f).map Prod.fst = t.map Prod.fst := by
  rw [List.map_map]
  exact List.map_congr_left (fun p _ => hk p)

/-- Overwriting all entries of one name preserves deep
name-distinctness. -/
theorem nodupTree_mapWrite (t : Tree) (n : String) (e : Entry)
    (hnd : nodupTree t = true) (hne : nodupEntry e = true) :
    nodupTree (t.map (fun p => if p.1 == n then (n, e) else p)) = true := by
  induction t with
  | nil => rfl
  | cons q rest ih =>
    obtain ⟨qn, qe⟩ := q
    obtain ⟨h1, h2, h3⟩ := nodupTree_cons qn qe rest hnd
    rw [List.map_cons]
    have hk : ∀ q : String × Entry,
        ((fun p => if p.1 == n then (n, e) else p) q).1 = q.1 := by
      intro q
      by_cases hq : q.1 = n <;> simp [hq]
    by_cases hq : qn = n
    · rw [if_pos (by simp [hq])]
      apply nodupTree_cons_of
      · rw [tree_map_fst _ _ hk]
        rw [← hq]
        exact h1
      · exact hne
      · exact ih h3
    · rw [if_neg (by simp [hq])]
      apply nodupTree_cons_of
      · rw [tree_map_fst _ _ hk]
        exact h1
      · exact h2
      · exact ih h3

/-- Appending a fresh name preserves deep name-distinctness. -/
theorem nodupTree_appendFresh (t : Tree) (n : String) (e : Entry)
    (hnd : nodupTree t = true) (hne : nodupEntry e = true)
    (hfresh : n ∉ t.map Prod.fst) : nodupTree (t ++ [(n, e)]) = true := by
  induction t with
  | nil =>
    rw [List.nil_append]
    exact nodupTree_cons_of n e [] (by simp) hne rfl
  | cons q rest ih =>
    obtain ⟨qn, qe⟩ := q
    obtain ⟨h1, h2, h3⟩ := nodupTree_cons qn qe rest hnd
    rw [List.cons_append]
    apply nodupTree_cons_of
    · simp only [List.map_append, List.mem_append]
      intro hmem
      rcases hmem with hmem | hmem
      · exact h1 hmem
      · simp at hmem
        apply hfresh
        simp [hmem]
    · exact h2
    · exact ih h3 (fun hm => hfresh (by simp [hm]))

/-- Writing one entry preserves deep name-distinctness. -/
theorem nodupTree_setEntry (t : Tree) (n : String) (e : Entry)
    (hnd : nodupTree t = true) (hne : nodupEntry e = true) :
    nodupTree (setEntry t n e) = true := by
  rw [setEntry]
  split
  · exact nodupTree_mapWrite t n e hnd hne
  · rename_i h
    apply nodupTree_appendFresh t n e hnd hne
    intro hmem
    obtain ⟨q, hq, hq1⟩ := List.mem_map.mp hmem
    exact h (List.any_eq_true.mpr ⟨q, hq, by simp [hq1]⟩)

/-- Creating a file path preserves deep name-distinctness. -/
theorem nodupTree_insertPath (l : List String) : ∀ (t : Tree) (c : List Nat),
    nodupTree t = true → nodupTree (insertPath t l c) = true := by
  induction l with
  | nil => intro t c h; rw [insertPath]; exact h
  | cons n rest ih =>
    intro t c hnd
    cases rest with
    | nil =>
      rw [insertPath_single]
      exact nodupTree_setEntry t n (Entry.file c) hnd rfl
    | cons m r =>
      rw [insertPath_cons2]
      apply nodupTree_setEntry t n _ hnd
      rw [nodupEntry_dir]
      apply ih
      cases hf : findEntry t n with
      | none => rfl
      | some e =>
        cases e with
        | file cf => rfl
        | dir ch =>
          rw [findEntry] at hf
          obtain ⟨q, hq, hq2⟩ := Option.map_eq_some'.mp hf
          have := nodupEntry_of_mem t hnd q (List.mem_of_find?_eq_some hq)
          rw [hq2, nodupEntry_dir] at this
          exact this

/-- Unfolding of `mkdirPath` at one or more segments. -/
theorem mkdirPath_cons (t : Tree) (n : String) (rest : List String) :
    mkdirPath t (n :: rest) =
      setEntry t n (Entry.dir (mkdirPath
        (match findEntry t n with
         | some (Entry.dir ch) => ch
         | _ => []) rest)) := by
  rw [mkdirPath]

/-- Creating a directory path preserves deep name-distinctness. -/
theorem nodupTree_mkdirPath (l : List String) : ∀ (t : Tree),
    nodupTree t = true → nodupTree (mkdirPath t l) = true := by
  induction l with
  | nil => intro t h; rw [mkdirPath]; exact h
  | cons n rest ih =>
    intro t hnd
    rw [mkdirPath_cons]
    apply nodupTree_setEntry t n _ hnd
    rw [nodupEntry_dir]
    apply ih
    cases hf : findEntry t n with
    | none => rfl
    | some e =>
      cases e with
      | file cf => rfl
      | dir ch =>
        rw [findEntry] at hf
        obtain ⟨q, hq, hq2⟩ := Option.map_eq_some'.mp hf
        have := nodupEntry_of_mem t hnd q (List.mem_of_find?_eq_some hq)
        rw [hq2, nodupEntry_dir] at this
        exact this

/-- The scratch tree extracted from any archive is deeply
name-distinct. -/
theorem nodupTree_extractArchive (es : List ArchiveEntry) :
    nodupTree (extractArchive es) = true := by
  rw [extractArchive]
  suffices hgen : ∀ t, nodupTree t = true →
      nodupTree (es.foldl extractOne t) = true from hgen [] rfl
  induction es with
  | nil => intro t h; exact h
  | cons e rest ih =>
    intro t h
    rw [List.foldl_cons]
    apply ih
    cases e with
    | fileEntry q d =>
      rw [extractOne_fileEntry]
      exact nodupTree_insertPath (splitSlash q) t d h
    | dirEntry q =>
      show nodupTree (mkdirPath t (splitSlash q)) = true
      exact nodupTree_mkdirPath (splitSlash q) t h

/-! ## Merging into fresh destinations -/

/-- Lookup of an absent name finds nothing. -/
theorem findEntry_eq_none (t : Tree) (n : String)
    (h : n ∉ t.map Prod.fst) : findEntry t n = none := by
  induction t with
  | nil => rfl
  | cons q rest ih =>
    rw [findEntry_cons]
    rw [if_neg (by simp; intro hq; exact h (by simp [hq]))]
    exact ih (fun hm => h (by simp [hm]))

/-- Writing a fresh name appends the entry. -/
theorem setEntry_fresh (t : Tree) (n : String) (e : Entry)
    (h : n ∉ t.map Prod.fst) : setEntry t n e = t ++ [(n, e)] := by
  rw [setEntry, if_neg]
  intro hany
  obtain ⟨q, hq, hqn⟩ := List.any_eq_true.mp hany
  exact h (List.mem_map.mpr ⟨q, hq, by simpa using hqn⟩)

mutual
/-- Merging one entry whose name is absent from the destination appends
it whole and cleanly (entry level, no locked paths). -/
theorem copyEntryMerge_fresh (name : String) (e : Entry) (pre : String)
    (dest : Tree) (hnd : nodupEntry e = true)
    (hfresh : name ∉ dest.map Prod.fst) :
    copyEntryMerge [] name e pre dest = (dest ++ [(name, e)], none) := by
  have hfe : findEntry dest name = none := findEntry_eq_none dest name hfresh
  match e, hnd with
  | Entry.file c, hnd =>
    rw [copyEntryMerge.eq_1, hfe]
    show (if ([] : List String).contains (joinRel pre name) = true then _
      else (setEntry dest name (Entry.file c), none)) = _
    rw [if_neg (by simp), setEntry_fresh dest name _ hfresh]
  | Entry.dir children, hnd =>
    rw [copyEntryMerge.eq_2, hfe]
    show (setEntry dest name
        (Entry.dir (copyDirMerge [] children (joinRel pre name) []).1),
      (copyDirMerge [] children (joinRel pre name) []).2) = _
    rw [copyDirMerge_fresh children (joinRel pre name) []
      (by rw [← nodupEntry_dir]; exact hnd) (by simp)]
    rw [setEntry_fresh dest name _ hfresh]
    simp

/-- Merging a deeply name-distinct listing whose names are all absent
from the destination appends it whole and cleanly (no locked paths). -/
theorem copyDirMerge_fresh (src : Tree) (pre : String) (dest : Tree)
    (hnd : nodupTree src = true)
    (hdisj : ∀ n ∈ src.map Prod.fst, n ∉ dest.map Prod.fst) :
    copyDirMerge [] src pre dest = (dest ++ src, none) := by
  match src, hnd with
  | [], _ =>
    rw [copyDirMerge_nil]
    simp
  | (name, e) :: rest, hnd =>
    obtain ⟨hn, hne, hnr⟩ := nodupTree_cons name e rest hnd
    have h1 := copyEntryMerge_fresh name e pre dest hne
      (hdisj name (by simp))
    rw [copyDirMerge_cons_ok [] name e rest pre dest
      (by rw [h1])]
    rw [show (copyEntryMerge [] name e pre dest).1 = dest ++ [(name, e)]
      from by rw [h1]]
    rw [copyDirMerge_fresh rest pre (dest ++ [(name, e)]) hnr ?disj]
    case disj =>
      intro n hnmem
      simp only [List.map_append, List.mem_append]
      intro hmem
      rcases hmem with hmem | hmem
      · exact hdisj n (by simp [hnmem]) hmem
      · simp at hmem
        exact hn (hmem ▸ hnmem)
    simp

end

/-! ## The realized archive of a well-formed tree -/

/-- `mapM` over `Option` succeeds pointwise. -/
theorem mapM_some_of_forall {α β : Type} (l : List α) (f : α → Option β)
    (R : α → β → Prop) (h : ∀ a ∈ l, ∃ b, f a = some b ∧ R a b) :
    ∃ bs, l.mapM f = some bs ∧ List.Forall₂ R l bs := by
  induction l with
  | nil => exact ⟨[], rfl, List.Forall₂.nil⟩
  | cons a rest ih =>
    obtain ⟨b, hfb, hR⟩ := h a (by simp)
    obtain ⟨bs, hbs, hF⟩ := ih (fun x hx => h x (by simp [hx]))
    refine ⟨b :: bs, ?_, List.Forall₂.cons hR hF⟩
    rw [List.mapM_cons, hfb, hbs]
    rfl

/-- A member of the right list of a `Forall₂` is related to some member
of the left list. -/
theorem forall₂_mem_right {α β : Type} {R : α → β → Prop} :
    ∀ {l : List α} {m : List β}, List.Forall₂ R l m →
    ∀ b ∈ m, ∃ a ∈ l, R a b := by
  intro l m h
  induction h with
  | nil => intro b hb; simp at hb
  | @cons a b l2 m2 hab htail ih =>
    intro b2 hb2
    rcases List.mem_cons.mp hb2 with hb2 | hb2
    · exact ⟨a, by simp, by rw [hb2]; exact hab⟩
    · obtain ⟨a2, ha2, hr⟩ := ih b2 hb2
      exact ⟨a2, by simp [ha2], hr⟩

/-- The archiving loop of `createSnapshot` on a well-formed tree
succeeds, producing one file entry per selected path, holding that
path's byte content. -/
theorem createSnapshotEntries_files (t : Tree) (s : Bool)
    (hw : wfTree t = true) :
    ∃ es, createSnapshotEntries t s = some es ∧
      List.Forall₂ (fun p e => ∃ c, e = ArchiveEntry.fileEntry p c ∧
        statPath t p = some (Entry.file c)) (getFilesToArchive t s) es := by
  rw [createSnapshotEntries]
  apply mapM_some_of_forall
  intro p hp
  obtain ⟨c, hc⟩ := walk_statPath t s hw p hp
  refine ⟨ArchiveEntry.fileEntry p c, ?_, c, rfl, hc⟩
  rw [entryFor, hc]

/-- A member of the left list of a `Forall₂` is related to some member
of the right list. -/
theorem forall₂_mem_left {α β : Type} {R : α → β → Prop} :
    ∀ {l : List α} {m : List β}, List.Forall₂ R l m →
    ∀ a ∈ l, ∃ b ∈ m, R a b := by
  intro l m h
  induction h with
  | nil => intro a ha; simp at ha
  | @cons a b l2 m2 hab htail ih =>
    intro a2 ha2
    rcases List.mem_cons.mp ha2 with ha2 | ha2
    · exact ⟨b, by simp, by rw [ha2]; exact hab⟩
    · obtain ⟨b2, hb2, hr⟩ := ih a2 ha2
      exact ⟨b2, by simp [hb2], hr⟩

/-- Transferring pairwise facts along a `Forall₂`. -/
theorem pairwise_of_forall₂ {α β : Type} {R : α → β → Prop}
    {S : α → α → Prop} {S2 : β → β → Prop} :
    ∀ {l : List α} {m : List β}, List.Forall₂ R l m → l.Pairwise S →
    (∀ (x y : α) (x2 y2 : β), R x x2 → R y y2 → S x y → S2 x2 y2) →
    m.Pairwise S2 := by
  intro l m h
  induction h with
  | nil => intro _ _; constructor
  | @cons a b l2 m2 hab htail ih =>
    intro hp himp
    obtain ⟨hhead, htl⟩ := List.pairwise_cons.mp hp
    refine List.pairwise_cons.mpr ⟨?_, ih htl himp⟩
    intro b2 hb2
    obtain ⟨a2, ha2, hr⟩ := forall₂_mem_right htail b2 hb2
    exact himp a a2 b b2 hab hr (hhead a2 ha2)

/-- C7 corrected: the Archiver never stores a directory entry — the
Selector emits only file paths, so each archive entry of a well-formed
source tree is a file entry, the `archive.directory` branch of
`createSnapshot` is unreachable, and an allowlisted directory with no
included files contributes nothing to the archive (the example tree
with an empty `commands` directory yields an empty archive). -/
theorem archive_stores_only_file_entries :
    (∀ (t : Tree) (s : Bool) (es : List ArchiveEntry), wfTree t = true →
      createSnapshotEntries t s = some es →
      ∀ e ∈ es, ∃ p c, e = ArchiveEntry.fileEntry p c) ∧
    getFilesToArchive [("commands", Entry.dir [])] false = [] ∧
    createSnapshotEntries [("commands", Entry.dir [])] false = some [] := by
  refine ⟨?_, rfl, rfl⟩
  intro t s es hw heq e he
  obtain ⟨es2, heq2, hF⟩ := createSnapshotEntries_files t s hw
  rw [heq] at heq2
  injection heq2 with heq3
  subst heq3
  obtain ⟨p, hp, c, hec, _⟩ := forall₂_mem_right hF e he
  exact ⟨p, c, hec⟩

/-- Witness for the C7 amended theorem at a concrete tree. -/
theorem archive_stores_only_file_entries_witness :
    ∃ p c, ArchiveEntry.fileEntry "CLAUDE.md" [2] =
      ArchiveEntry.fileEntry p c :=
  archive_stores_only_file_entries.1 sampleTree false
    [ArchiveEntry.fileEntry "commands/deploy.md" [1],
      ArchiveEntry.fileEntry "CLAUDE.md" [2]] rfl rfl
    (ArchiveEntry.fileEntry "CLAUDE.md" [2])
    (List.mem_cons_of_mem _ (List.mem_cons_self _ _))

/-- C2: for every well-formed source tree, archiving it, extracting the
archive to a fresh scratch tree and merging that scratch tree into an
empty destination succeeds, and reproduces, at every relative path the
Selector emitted, a file with exactly the source's byte content. -/
theorem round_trip :
    ∀ (t : Tree) (s : Bool), wfTree t = true →
      ∃ es, createSnapshotEntries t s = some es ∧
        (copyDirMerge [] (extractArchive es) "" []).2 = none ∧
        ∀ p ∈ getFilesToArchive t s,
          ∃ c, statPath t p = some (Entry.file c) ∧
            statPath (copyDirMerge [] (extractArchive es) "" []).1 p =
              some (Entry.file c) := by
  intro t s hw
  obtain ⟨es, heq, hF⟩ := createSnapshotEntries_files t s hw
  have hall : ∀ e ∈ es, ∃ q d, e = ArchiveEntry.fileEntry q d := by
    intro e he
    obtain ⟨p, hp, c, hec, _⟩ := forall₂_mem_right hF e he
    exact ⟨p, c, hec⟩
  have hnd : nodupTree (extractArchive es) = true :=
    nodupTree_extractArchive es
  have hmerge : copyDirMerge [] (extractArchive es) "" [] =
      ([] ++ extractArchive es, none) :=
    copyDirMerge_fresh (extractArchive es) "" [] hnd (by simp)
  refine ⟨es, heq, by rw [hmerge], ?_⟩
  intro p hp
  obtain ⟨e, he, c, hec, hstat⟩ := forall₂_mem_left hF p hp
  subst hec
  refine ⟨c, hstat, ?_⟩
  have hne : splitSlash p ≠ [] := by
    intro h0
    rw [statPath, h0, resolveSegs_nil] at hstat
    exact Option.noConfusion hstat
  have hpair : es.Pairwise (fun e1 e2 => ∀ q1 d1 q2 d2,
      e1 = ArchiveEntry.fileEntry q1 d1 → e2 = ArchiveEntry.fileEntry q2 d2 →
      ¬ splitSlash q1 <+: splitSlash q2 ∧
        ¬ splitSlash q2 <+: splitSlash q1) := by
    apply pairwise_of_forall₂ hF (emitted_pairwise t s hw)
    intro x y x2 y2 hx hy hs
    obtain ⟨cx, hx2, _⟩ := hx
    obtain ⟨cy, hy2, _⟩ := hy
    intro q1 d1 q2 d2 h1 h2
    rw [hx2] at h1
    rw [hy2] at h2
    injection h1 with h1a h1b
    injection h2 with h2a h2b
    rw [← h1a, ← h2a]
    exact hs
  rw [hmerge]
  show statPath ([] ++ extractArchive es) p = some (Entry.file c)
  rw [List.nil_append, statPath, extractArchive]
  exact extractFold_get es [] p c he hne hpair hall

/-- Witness for C2 at a concrete tree. -/
theorem round_trip_witness :
    ∃ es, createSnapshotEntries sampleTree false = some es ∧
      (copyDirMerge [] (extractArchive es) "" []).2 = none ∧
      ∀ p ∈ getFilesToArchive sampleTree false,
        ∃ c, statPath sampleTree p = some (Entry.file c) ∧
          statPath (copyDirMerge [] (extractArchive es) "" []).1 p =
            some (Entry.file c) :=
  round_trip sampleTree false rfl

/-! ## Idempotence of the merge -/

/-- After writing `e` at `n`, every `n`-named entry is `(n, e)`. -/
theorem allNamed_setEntry_self (d : Tree) (n : String) (e : Entry) :
    allNamed (setEntry d n e) n e := by
  intro q hq hq1
  rw [setEntry] at hq
  split at hq
  · obtain ⟨q0, hq0, hq0e⟩ := List.mem_map.mp hq
    by_cases h0 : q0.1 = n
    · rw [← hq0e]
      simp [h0]
    · rw [← hq0e] at hq1
      rw [if_neg (by simpa using h0)] at hq1
      exact absurd hq1 h0
  · rename_i hany
    rcases List.mem_append.mp hq with hq2 | hq2
    · exact absurd (List.any_eq_true.mpr ⟨q, hq2, by simp [hq1]⟩) hany
    · simpa using hq2

/-- After writing at `n`, the name `n` is present. -/
theorem hasName_setEntry_self (d : Tree) (n : String) (e : Entry) :
    n ∈ (setEntry d n e).map Prod.fst := by
  rw [setEntry]
  split
  · rename_i hany
    obtain ⟨q, hq, hqn⟩ := List.any_eq_true.mp hany
    refine List.mem_map.mpr
      ⟨(if q.1 == n then (n, e) else q), List.mem_map_of_mem _ hq, ?_⟩
    rw [if_pos hqn]
  · simp

/-- Writing at another name preserves the `allNamed` fact. -/
theorem allNamed_setEntry_ne (d : Tree) (n m : String) (e v : Entry)
    (hmn : m ≠ n) (h : allNamed d n v) : allNamed (setEntry d m e) n v := by
  intro q hq hq1
  rw [setEntry] at hq
  split at hq
  · obtain ⟨q0, hq0, hq0e⟩ := List.mem_map.mp hq
    by_cases h0 : q0.1 = m
    · rw [← hq0e] at hq1
      rw [if_pos (by simpa using h0)] at hq1
      exact absurd hq1 hmn
    · rw [← hq0e] at hq1 ⊢
      rw [if_neg (by simpa using h0)] at hq1 ⊢
      exact h q0 hq0 hq1
  · rcases List.mem_append.mp hq with hq | hq
    · exact h q hq hq1
    · simp at hq
      rw [hq] at hq1
      exact absurd hq1 hmn

/-- Writing at any name preserves presence of a name. -/
theorem hasName_setEntry_mono (d : Tree) (n m : String) (e : Entry)
    (h : n ∈ d.map Prod.fst) : n ∈ (setEntry d m e).map Prod.fst := by
  rw [setEntry]
  split
  · rw [tree_map_fst _ _ (fun q => by by_cases hq : q.1 = m <;> simp [hq])]
    exact h
  · simp [h]

/-- Lookup under the `allNamed` fact. -/
theorem findEntry_of_allNamed (d : Tree) (n : String) (v : Entry)
    (ha : allNamed d n v) (hh : n ∈ d.map Prod.fst) :
    findEntry d n = some v := by
  induction d with
  | nil => simp at hh
  | cons q rest ih =>
    rw [findEntry_cons]
    by_cases h0 : q.1 = n
    · rw [if_pos (by simpa using h0)]
      rw [ha q (by simp) h0]
    · rw [if_neg (by simpa using h0)]
      apply ih
      · intro q2 hq2 hq21
        exact ha q2 (by simp [hq2]) hq21
      · obtain ⟨q2, hq2, hq2n⟩ := List.mem_map.mp hh
        rcases List.mem_cons.mp hq2 with h2 | h2
        · rw [h2] at hq2n
          exact absurd hq2n h0
        · exact List.mem_map.mpr ⟨q2, h2, hq2n⟩

/-- Rewriting a value that is already everywhere in place is the
identity. -/
theorem setEntry_of_allNamed (d : Tree) (n : String) (v : Entry)
    (ha : allNamed d n v) (hh : n ∈ d.map Prod.fst) :
    setEntry d n v = d := by
  obtain ⟨q0, hq0, hq0n⟩ := List.mem_map.mp hh
  rw [setEntry, if_pos (List.any_eq_true.mpr ⟨q0, hq0, by simp [hq0n]⟩)]
  have hpt : ∀ q ∈ d, (if q.1 == n then (n, v) else q) = q := by
    intro q hq
    by_cases h0 : q.1 = n
    · rw [if_pos (by simpa using h0), ha q hq h0]
    · rw [if_neg (by simpa using h0)]
  calc d.map (fun q => if q.1 == n then (n, v) else q)
      = d.map (fun q => q) := List.map_congr_left hpt
    _ = d := List.map_id' d

/-- Merging one entry of another name neither moves lookup at `n` nor
breaks the `allNamed` and presence facts at `n`. -/
theorem copyEntryMerge_pres (locked : List String) (nm2 : String)
    (e2 : Entry) (pre : String) (d : Tree) (n : String) (hne : nm2 ≠ n) :
    findEntry ((copyEntryMerge locked nm2 e2 pre d).1) n = findEntry d n ∧
    (∀ v, allNamed d n v →
      allNamed ((copyEntryMerge locked nm2 e2 pre d).1) n v) ∧
    (n ∈ d.map Prod.fst →
      n ∈ ((copyEntryMerge locked nm2 e2 pre d).1).map Prod.fst) := by
  match e2 with
  | Entry.file c =>
    rw [copyEntryMerge.eq_1]
    split
    · exact ⟨rfl, fun v h => h, id⟩
    · split
      · exact ⟨rfl, fun v h => h, id⟩
      · exact ⟨findEntry_setEntry_ne d nm2 n _ (Ne.symm hne),
          fun v h => allNamed_setEntry_ne d n nm2 _ v hne h,
          fun h => hasName_setEntry_mono d n nm2 _ h⟩
  | Entry.dir ch =>
    rw [copyEntryMerge.eq_2]
    split
    · exact ⟨rfl, fun v h => h, id⟩
    · exact ⟨findEntry_setEntry_ne d nm2 n _ (Ne.symm hne),
        fun v h => allNamed_setEntry_ne d n nm2 _ v hne h,
        fun h => hasName_setEntry_mono d n nm2 _ h⟩

/-- Merging a listing that does not hold the name `n` neither moves
lookup at `n` nor breaks the `allNamed` and presence facts at `n`. -/
theorem copyDirMerge_pres (locked : List String) (src : Tree)
    (pre n : String) : ∀ (d : Tree), n ∉ src.map Prod.fst →
    findEntry ((copyDirMerge locked src pre d).1) n = findEntry d n ∧
    (∀ v, allNamed d n v →
      allNamed ((copyDirMerge locked src pre d).1) n v) ∧
    (n ∈ d.map Prod.fst →
      n ∈ ((copyDirMerge locked src pre d).1).map Prod.fst) := by
  induction src with
  | nil =>
    intro d _
    rw [copyDirMerge_nil]
    exact ⟨rfl, fun v h => h, id⟩
  | cons x rest ih =>
    intro d hnotin
    obtain ⟨nm2, e2⟩ := x
    have hne : nm2 ≠ n := by
      intro h
      exact hnotin (by simp [h])
    have hpres := copyEntryMerge_pres locked nm2 e2 pre d n hne
    cases hr : (copyEntryMerge locked nm2 e2 pre d).2 with
    | some err =>
      rw [copyDirMerge_cons_err locked nm2 e2 rest pre d err hr]
      exact hpres
    | none =>
      rw [copyDirMerge_cons_ok locked nm2 e2 rest pre d hr]
      have ihr := ih (copyEntryMerge locked nm2 e2 pre d).1
        (fun hm => hnotin (by simp [hm]))
      exact ⟨by rw [ihr.1, hpres.1],
        fun v h => ihr.2.1 v (hpres.2.1 v h),
        fun h => ihr.2.2 (hpres.2.2 h)⟩

mutual
/-- A clean merge of one deeply name-distinct entry leaves the
destination with a stable value at that name: merging the same entry
again into any destination carrying that value is the identity. -/
theorem copyEntryMerge_idem (name : String) (e : Entry) (pre : String)
    (dest d1 : Tree) (hnd : nodupEntry e = true)
    (h : copyEntryMerge [] name e pre dest = (d1, none)) :
    ∃ v, findEntry d1 name = some v ∧ allNamed d1 name v ∧
      name ∈ d1.map Prod.fst ∧
      (∀ d2, findEntry d2 name = some v → allNamed d2 name v →
        name ∈ d2.map Prod.fst →
        copyEntryMerge [] name e pre d2 = (d2, none)) := by
  match e, hnd, h with
  | Entry.file c, hnd, h =>
    rw [copyEntryMerge.eq_1] at h
    split at h
    · exact absurd (congrArg Prod.snd h) (by simp)
    · rw [if_neg (by simp)] at h
      have hd1 : d1 = setEntry dest name (Entry.file c) :=
        (congrArg Prod.fst h).symm
      subst hd1
      refine ⟨Entry.file c, findEntry_setEntry_self dest name _,
        allNamed_setEntry_self dest name _,
        hasName_setEntry_self dest name _, ?_⟩
      intro d2 hf2 ha2 hh2
      rw [copyEntryMerge.eq_1, hf2]
      show (if ([] : List String).contains (joinRel pre name) = true then _
        else (setEntry d2 name (Entry.file c), none)) = (d2, none)
      rw [if_neg (by simp), setEntry_of_allNamed d2 name _ ha2 hh2]
  | Entry.dir ch, hnd, h =>
    rw [copyEntryMerge.eq_2] at h
    cases hf : findEntry dest name with
    | some e0 =>
      match e0, hf with
      | Entry.file c0, hf =>
        rw [hf] at h
        exact absurd (congrArg Prod.snd h) (by simp)
      | Entry.dir dch, hf =>
        rw [hf] at h
        have hm2 : (copyDirMerge [] ch (joinRel pre name) dch).2 = none :=
          congrArg Prod.snd h
        have hm : copyDirMerge [] ch (joinRel pre name) dch =
            ((copyDirMerge [] ch (joinRel pre name) dch).1, none) := by
          rw [← hm2]
        have hd1 : d1 = setEntry dest name
            (Entry.dir (copyDirMerge [] ch (joinRel pre name) dch).1) :=
          (congrArg Prod.fst h).symm
        subst hd1
        have hidem := copyDirMerge_idem ch (joinRel pre name) dch
          (copyDirMerge [] ch (joinRel pre name) dch).1
          (by rw [← nodupEntry_dir]; exact hnd) hm
        refine ⟨Entry.dir (copyDirMerge [] ch (joinRel pre name) dch).1,
          findEntry_setEntry_self dest name _,
          allNamed_setEntry_self dest name _,
          hasName_setEntry_self dest name _, ?_⟩
        intro d2 hf2 ha2 hh2
        rw [copyEntryMerge.eq_2, hf2]
        show (setEntry d2 name (Entry.dir (copyDirMerge [] ch
            (joinRel pre name)
            (copyDirMerge [] ch (joinRel pre name) dch).1).1),
          (copyDirMerge [] ch (joinRel pre name)
            (copyDirMerge [] ch (joinRel pre name) dch).1).2) = (d2, none)
        rw [hidem]
        rw [setEntry_of_allNamed d2 name _ ha2 hh2]
    | none =>
      rw [hf] at h
      have hm2 : (copyDirMerge [] ch (joinRel pre name) []).2 = none :=
        congrArg Prod.snd h
      have hm : copyDirMerge [] ch (joinRel pre name) [] =
          ((copyDirMerge [] ch (joinRel pre name) []).1, none) := by
        rw [← hm2]
      have hd1 : d1 = setEntry dest name
          (Entry.dir (copyDirMerge [] ch (joinRel pre name) []).1) :=
        (congrArg Prod.fst h).symm
      subst hd1
      have hidem := copyDirMerge_idem ch (joinRel pre name) []
        (copyDirMerge [] ch (joinRel pre name) []).1
        (by rw [← nodupEntry_dir]; exact hnd) hm
      refine ⟨Entry.dir (copyDirMerge [] ch (joinRel pre name) []).1,
        findEntry_setEntry_self dest name _,
        allNamed_setEntry_self dest name _,
        hasName_setEntry_self dest name _, ?_⟩
      intro d2 hf2 ha2 hh2
      rw [copyEntryMerge.eq_2, hf2]
      show (setEntry d2 name (Entry.dir (copyDirMerge [] ch
          (joinRel pre name)
          (copyDirMerge [] ch (joinRel pre name) []).1).1),
        (copyDirMerge [] ch (joinRel pre name)
          (copyDirMerge [] ch (joinRel pre name) []).1).2) = (d2, none)
      rw [hidem]
      rw [setEntry_of_allNamed d2 name _ ha2 hh2]

/-- Merging the same deeply name-distinct listing a second time onto
the tree a clean first merge produced changes nothing. -/
theorem copyDirMerge_idem (src : Tree) (pre : String) (dest d1 : Tree)
    (hnd : nodupTree src = true)
    (h : copyDirMerge [] src pre dest = (d1, none)) :
    copyDirMerge [] src pre d1 = (d1, none) := by
  match src, hnd, h with
  | [], _, h =>
    rw [copyDirMerge_nil]
  | (nm, e) :: rest, hnd, h =>
    obtain ⟨hn, hne, hnr⟩ := nodupTree_cons nm e rest hnd
    cases hr : (copyEntryMerge [] nm e pre dest).2 with
    | some err =>
      rw [copyDirMerge_cons_err [] nm e rest pre dest err hr] at h
      exact absurd (congrArg Prod.snd h) (by simp)
    | none =>
      rw [copyDirMerge_cons_ok [] nm e rest pre dest hr] at h
      have hEntry : copyEntryMerge [] nm e pre dest =
          ((copyEntryMerge [] nm e pre dest).1, none) := by
        rw [← hr]
      obtain ⟨v, hfda, hada, hhda, hagain⟩ :=
        copyEntryMerge_idem nm e pre dest
          (copyEntryMerge [] nm e pre dest).1 hne hEntry
      have hpres := copyDirMerge_pres [] rest pre nm
        (copyEntryMerge [] nm e pre dest).1 hn
      have hd1 : (copyDirMerge [] rest pre
          (copyEntryMerge [] nm e pre dest).1).1 = d1 := congrArg Prod.fst h
      have hf1 : findEntry d1 nm = some v := by
        rw [← hd1, hpres.1, hfda]
      have ha1 : allNamed d1 nm v := by
        rw [← hd1]
        exact hpres.2.1 v hada
      have hh1 : nm ∈ d1.map Prod.fst := by
        rw [← hd1]
        exact hpres.2.2 hhda
      have hhead2 := hagain d1 hf1 ha1 hh1
      rw [copyDirMerge_cons_ok [] nm e rest pre d1 (by rw [hhead2])]
      rw [show (copyEntryMerge [] nm e pre d1).1 = d1 from by rw [hhead2]]
      exact copyDirMerge_idem rest pre
        (copyEntryMerge [] nm e pre dest).1 d1 hnr h
end

/-- `extractSnapshot` with `force` set, reduced to its merge. -/
theorem extractSnapshot_force (z : List ArchiveEntry) (d : Option Tree)
    (b r : Bool) :
    extractSnapshot
        { zip := some z, claudeDir := d, locked := [],
          rmScratchThrows := r }
        { backup := b, force := true } =
      { result :=
          match (copyDirMerge [] (extractArchive z) "" (d.getD [])).2 with
          | some e => Except.error e
          | none => Except.ok ()
        claudeDir := some (copyDirMerge [] (extractArchive z) "" (d.getD [])).1
        backups := if b && d.isSome then [d.getD []] else []
        scratchCreated := true, extracted := true, scratchRemains := r } := by
  cases d <;> rfl

/-- C8: restoring the same archive twice in succession with
`force=true` (the first restore succeeding) yields exactly the
destination tree of the first restore — the second restore succeeds and
changes nothing. -/
theorem idempotent_restore :
    ∀ (z : List ArchiveEntry) (d0 : Option Tree) (b1 b2 r1 r2 : Bool),
      (restoreOnce z d0 b1 r1).result = Except.ok () →
      (restoreOnce z (restoreOnce z d0 b1 r1).claudeDir b2 r2).claudeDir =
        (restoreOnce z d0 b1 r1).claudeDir ∧
      (restoreOnce z (restoreOnce z d0 b1 r1).claudeDir b2 r2).result =
        Except.ok () := by
  intro z d0 b1 b2 r1 r2 h1
  simp only [restoreOnce] at h1 ⊢
  rw [extractSnapshot_force z d0 b1 r1] at h1 ⊢
  dsimp only at h1 ⊢
  cases hm : (copyDirMerge [] (extractArchive z) "" (d0.getD [])).2 with
  | some e =>
    rw [hm] at h1
    exact absurd h1 (by simp)
  | none =>
    have hmain : copyDirMerge [] (extractArchive z) "" (d0.getD []) =
        ((copyDirMerge [] (extractArchive z) "" (d0.getD [])).1, none) := by
      rw [← hm]
    have hidem := copyDirMerge_idem (extractArchive z) "" (d0.getD [])
      (copyDirMerge [] (extractArchive z) "" (d0.getD [])).1
      (nodupTree_extractArchive z) hmain
    rw [extractSnapshot_force]
    dsimp only
    simp only [Option.getD_some]
    rw [hidem]
    exact ⟨rfl, rfl⟩

/-- Witness for C8 at a concrete archive and destination. -/
theorem idempotent_restore_witness :
    (restoreOnce [ArchiveEntry.fileEntry "CLAUDE.md" [7]]
        (restoreOnce [ArchiveEntry.fileEntry "CLAUDE.md" [7]]
          (some [("CLAUDE.md", Entry.file [9])]) false false).claudeDir
        false false).claudeDir =
      (restoreOnce [ArchiveEntry.fileEntry "CLAUDE.md" [7]]
        (some [("CLAUDE.md", Entry.file [9])]) false false).claudeDir ∧
    (restoreOnce [ArchiveEntry.fileEntry "CLAUDE.md" [7]]
        (restoreOnce [ArchiveEntry.fileEntry "CLAUDE.md" [7]]
          (some [("CLAUDE.md", Entry.file [9])]) false false).claudeDir
        false false).result = Except.ok () :=
  idempotent_restore [ArchiveEntry.fileEntry "CLAUDE.md" [7]]
    (some [("CLAUDE.md", Entry.file [9])]) false false false false rfl

end Snapshot
